import Mathlib

/-!
Verification of the indexing/caching core of the `etools` launcher
(`src-tauri/src/db/{files,browser}.rs`,
 `src-tauri/src/services/{file_indexer,browser_reader}.rs`,
 `src-tauri/src/cmds/search.rs`).

The Rust code is shallowly embedded: SQLite tables become lists of row
structures threaded through the operations, `rusqlite` statements become
functions on those lists implementing the documented SQLite semantics,
fallible operations return `Except String`, and machine integers (`i64`)
become `Int` with Rust's truncating division written `Int.tdiv` (all
dividends in this development are nonnegative, where truncating and
Euclidean division agree).
-/

namespace ETools

/-- Rust `i64` division truncates toward zero; `Int.tdiv` has exactly that
semantics (operands here always fit in an `i64`, so overflow is not modelled). -/
def i64_div (a b : Int) : Int := Int.tdiv a b

/-! ### Timestamp normalization (`services/browser_reader.rs`)

`read_chrome_history` (line 209): Chrome stores microseconds since
1601-01-01 and the code computes `(last_visit_time / 1_000_000) - 11_644_473_600`.

`read_firefox_data` (lines 339 and 375): Firefox stores microseconds since
the Unix epoch and the code computes `date_added / 1_000_000` resp.
`last_visit_date / 1_000_000`.

`read_safari_data` (line 428): Safari stores seconds since 2001-01-01 as an
SQLite REAL; the code reads it as `f64`, truncates with `as i64`, and
computes `last_visit_time as i64 + 978_307_200`. -/

/-- Chrome normalization, `browser_reader.rs:209`. -/
def chrome_normalize (last_visit_time : Int) : Int :=
  i64_div last_visit_time 1000000 - 11644473600

/-- Firefox normalization, `browser_reader.rs:339` and `:375`. -/
def firefox_normalize (t : Int) : Int :=
  i64_div t 1000000

/-- Safari normalization, `browser_reader.rs:428`; the argument is the
`as i64` truncation of the stored `f64` seconds-since-2001 value. -/
def safari_normalize (seconds_since_2001 : Int) : Int :=
  seconds_since_2001 + 978307200

/-- A real-world instant, given as Unix-epoch microseconds `mu`, as the
Chrome family encodes it: microseconds since 1601-01-01. -/
def chrome_encoding (mu : Int) : Int := mu + 11644473600 * 1000000

/-- The same instant as Firefox encodes it: microseconds since the Unix epoch. -/
def firefox_encoding (mu : Int) : Int := mu

/-- The same instant as Safari stores it, after the reader's `as i64`
truncation: the integer part of `mu / 10^6 - 978307200` seconds since
2001-01-01.  (The stored REAL carries a fractional part; for instants at or
after 2001-01-01 the value is nonnegative, so `as i64` truncation is the
floor, and the magnitudes involved are well inside the range where `f64`
represents the integer part exactly.) -/
def safari_encoding_trunc (mu : Int) : Int :=
  i64_div mu 1000000 - 978307200

/-! ### Browser cache store (`db/browser.rs`) -/

/-- `BrowserEntry`, `db/browser.rs:13`. -/
structure BrowserEntry where
  id : Option Int
  url : String
  title : String
  favicon : Option String
  browser : String
  entry_type : String
  visit_count : Int
  last_visited : Option Int
  folder : Option String
  cached : Int
deriving Repr, DecidableEq

/-- A stored row of the `browser_data` table (`id` assigned by AUTOINCREMENT). -/
structure BrowserRow where
  id : Int
  url : String
  title : String
  favicon : Option String
  browser : String
  entry_type : String
  visit_count : Int
  last_visited : Option Int
  folder : Option String
  cached : Int
deriving Repr, DecidableEq

/-- The `browser_data` table: its rows plus the next AUTOINCREMENT id. -/
structure BrowserDb where
  rows : List BrowserRow
  nextId : Int
deriving Repr, DecidableEq

/-- The unique column sets of the `browser_data` table as created by
`init_browser_db` (`db/browser.rs:27-65`): the `CREATE TABLE` statement
declares only `id INTEGER PRIMARY KEY AUTOINCREMENT`, and the three
`CREATE INDEX` statements (`idx_url` on `url`, `idx_title` on `title`,
`idx_browser_type` on `(browser, type)`) are plain, non-UNIQUE indexes. -/
def browser_unique_column_sets : List (List String) := [["id"]]

/-- SQLite accepts an `ON CONFLICT (cols) DO UPDATE` clause only when `cols`
names the columns of a PRIMARY KEY or UNIQUE constraint/index of the table;
otherwise preparing the statement fails with the error below. -/
def conflict_target_ok (uniques : List (List String)) (target : List String) : Bool :=
  uniques.contains target

/-- The SQLite prepare-time error for an unsupported conflict target. -/
def onConflictErr : String :=
  "ON CONFLICT clause does not match any PRIMARY KEY or unique constraint"

/-- Write `e`'s field values over an existing row (the `DO UPDATE SET` list of
`upsert_browser_entry` assigns every column except `id` and `url`/`browser`,
which already match). -/
def overwriteBrowserRow (e : BrowserEntry) (r : BrowserRow) : BrowserRow :=
  { r with
    title := e.title
    favicon := e.favicon
    entry_type := e.entry_type
    visit_count := e.visit_count
    last_visited := e.last_visited
    folder := e.folder
    cached := e.cached }

/-- `upsert_browser_entry`, `db/browser.rs:68-97`:
`INSERT INTO browser_data ... ON CONFLICT(url, browser) DO UPDATE SET ...`.
Per SQLite upsert semantics the statement prepares only if `(url, browser)`
is a declared unique column set of the table; since `init_browser_db`
declares none, against the real schema this always returns the error. -/
def upsert_browser_entry (db : BrowserDb) (e : BrowserEntry) :
    Except String BrowserDb :=
  if conflict_target_ok browser_unique_column_sets ["url", "browser"] then
    if db.rows.any (fun r => r.url == e.url && r.browser == e.browser) then
      .ok ⟨db.rows.map (fun r =>
            if r.url == e.url && r.browser == e.browser then
              overwriteBrowserRow e r
            else r),
          db.nextId⟩
    else
      .ok ⟨db.rows ++ [{ id := db.nextId, url := e.url, title := e.title,
                         favicon := e.favicon, browser := e.browser,
                         entry_type := e.entry_type,
                         visit_count := e.visit_count,
                         last_visited := e.last_visited,
                         folder := e.folder, cached := e.cached }],
          db.nextId + 1⟩
  else
    .error onConflictErr

/-! ### Browser reader cycle (`services/browser_reader.rs`) -/

/-- `BrowserType`, `browser_reader.rs:15`. -/
inductive BrowserType where
  | chrome
  | firefox
  | safari
  | edge
deriving Repr, DecidableEq

/-- `expire_cache`, `browser_reader.rs:82-94`: computes
`expiry_time = now - cache_expiry_minutes * 60` and executes
`DELETE FROM browser_data WHERE cached < expiry_time` (rows whose `cached`
is not below the threshold are retained). -/
def expire_cache (now cache_expiry_minutes : Int) (db : BrowserDb) : BrowserDb :=
  ⟨db.rows.filter (fun r => !(r.cached < now - cache_expiry_minutes * 60)),
   db.nextId⟩

/-- Result of one `update_cache` cycle: the store, the returned count, the
upsert calls issued in order (a ghost trace recorded purely so that theorems
can speak about which upserts were attempted; it has no effect on `db` or
`count`), and the browsers whose read failed and were logged by `eprintln!`. -/
structure CycleOut where
  db : BrowserDb
  count : Nat
  attemptedUpserts : List BrowserEntry
  failedBrowsers : List BrowserType
deriving Repr

/-- Inner loop of `update_cache` over the enabled browsers
(`browser_reader.rs:61-76`): a read failure is logged and the browser
skipped; on success every entry is upserted with the result discarded
(`let _ = upsert_browser_entry(...)`) and `count` incremented per entry
regardless of the upsert's outcome. -/
def update_cache_loop (reads : BrowserType → Except String (List BrowserEntry)) :
    List BrowserType → CycleOut → CycleOut
  | [], out => out
  | b :: rest, out =>
    match reads b with
    | .error _ =>
      update_cache_loop reads rest
        { out with failedBrowsers := out.failedBrowsers ++ [b] }
    | .ok entries =>
      let db' := entries.foldl
        (fun d e =>
          match upsert_browser_entry d e with
          | .ok d' => d'
          | .error _ => d)
        out.db
      update_cache_loop reads rest
        { out with
          db := db'
          count := out.count + entries.length
          attemptedUpserts := out.attemptedUpserts ++ entries }

/-- `update_cache`, `browser_reader.rs:55-79`: expire once, then process each
enabled browser in order.  `read_browser_data`'s platform- and I/O-dependent
result is supplied as the function `reads`.  (The per-browser
`init_browser_db` call and the store-open inside `expire_cache` are modelled
as succeeding; their failures are `StoreError`s outside these claims.) -/
def update_cache (reads : BrowserType → Except String (List BrowserEntry))
    (enabled : List BrowserType) (now cache_expiry_minutes : Int)
    (db : BrowserDb) : CycleOut :=
  update_cache_loop reads enabled
    ⟨expire_cache now cache_expiry_minutes db, 0, [], []⟩

/-! ### Chrome / Edge extraction (`services/browser_reader.rs`) -/

/-- The fragment of `serde_json::Value` the bookmark extraction inspects:
strings, arrays and objects; every other JSON value (numbers, booleans,
null) is collapsed into `other`, since `as_str` / `as_array` / `get` fail
uniformly on them. -/
inductive Jsonv where
  | str (s : String)
  | arr (xs : List Jsonv)
  | obj (fields : List (String × Jsonv))
  | other
deriving Inhabited

/-- `serde_json::Value::get(key)` on an object: the value of the first field
with that key; `None` on non-objects. -/
def Jsonv.get (key : String) : Jsonv → Option Jsonv
  | .obj fields =>
    match fields.find? (fun f => f.fst == key) with
    | some f => some f.snd
    | none => none
  | _ => none

/-- `Value::as_str`. -/
def Jsonv.asStr : Jsonv → Option String
  | .str s => some s
  | _ => none

/-- One row of the Chrome `urls` history table as
`read_chrome_history` selects it (`browser_reader.rs:193-204`). -/
structure ChromeHistRow where
  url : String
  title : Option String
  visit_count : Int
  last_visit_time : Int
deriving Repr, DecidableEq

/-- The on-disk data of one Chromium-family profile as `read_chrome_data`
consumes it: `none` for `bookmarksJson` models a missing, unreadable or
unparsable `Default/Bookmarks` file (all three are skipped by the nested
`if let Ok` chain, `browser_reader.rs:161-168`); `none` for `historyRows`
models a missing `Default/History` file or a failing `read_chrome_history`
(skipped by `if let Ok`, lines 171-176). -/
structure ChromeProfileData where
  bookmarksJson : Option Jsonv
  historyRows : Option (List ChromeHistRow)

/-- `read_chrome_history`'s per-row conversion (`browser_reader.rs:206-224`):
normalize the timestamp and build a `BrowserEntry` with
`browser = "chrome"`, `entry_type = "history"`. -/
def chrome_history_entry (now : Int) (r : ChromeHistRow) : BrowserEntry :=
  { id := none
    url := r.url
    title := r.title.getD "Untitled"
    favicon := none
    browser := "chrome"
    entry_type := "history"
    visit_count := r.visit_count
    last_visited := some (chrome_normalize r.last_visit_time)
    folder := none
    cached := now }

/-- `read_chrome_history`, `browser_reader.rs:182-227`, after the
snapshot-copy and SQL query have produced the rows. -/
def read_chrome_history (now : Int) (rows : List ChromeHistRow) :
    List BrowserEntry :=
  rows.map (chrome_history_entry now)

/-- A value looked up by `Jsonv.get` is a strict subterm of the object
(needed for termination of the bookmark-tree recursion). -/
theorem Jsonv.sizeOf_get {j v : Jsonv} {k : String} (h : j.get k = some v) :
    sizeOf v < sizeOf j := by
  cases j with
  | obj fields =>
    simp only [Jsonv.get] at h
    cases hf : fields.find? (fun f => f.fst == k) with
    | none => rw [hf] at h; exact absurd h (by simp)
    | some f =>
      rw [hf] at h
      injection h with h
      subst h
      have hmem := List.mem_of_find?_eq_some hf
      have hlt := List.sizeOf_lt_of_mem hmem
      have hsnd : sizeOf f.snd < sizeOf f := by
        obtain ⟨a, b⟩ := f
        simp only [Prod.mk.sizeOf_spec]
        omega
      simp only [Jsonv.obj.sizeOf_spec]
      omega
  | str s => simp [Jsonv.get] at h
  | arr xs => simp [Jsonv.get] at h
  | other => simp [Jsonv.get] at h

mutual

/-- `extract_chrome_bookmark_children`, `browser_reader.rs:255-286`:
recursively flatten the bookmark tree, appending to the accumulator.  A
child of type `"folder"` is recursed into (when it has `children`); any
other child carrying a string `url` becomes a bookmark entry with
`browser = "chrome"`, `entry_type = "bookmark"` and title `name` (or
`"Untitled"`). -/
def extract_chrome_bookmark_children (now : Int) :
    Jsonv → List BrowserEntry → List BrowserEntry
  | .arr children, acc => extract_children_list now children acc
  | _, acc => acc
termination_by j _ => sizeOf j
decreasing_by simp

/-- Loop of `extract_chrome_bookmark_children` over the array elements. -/
def extract_children_list (now : Int) :
    List Jsonv → List BrowserEntry → List BrowserEntry
  | [], acc => acc
  | child :: rest, acc =>
    let acc' :=
      if (child.get "type").bind Jsonv.asStr == some "folder" then
        match hk : child.get "children" with
        | some kids => extract_chrome_bookmark_children now kids acc
        | none => acc
      else
        match (child.get "url").bind Jsonv.asStr with
        | some u =>
          acc ++ [{ id := none
                    url := u
                    title := (((child.get "name").bind Jsonv.asStr).getD "Untitled")
                    favicon := none
                    browser := "chrome"
                    entry_type := "bookmark"
                    visit_count := 0
                    last_visited := none
                    folder := none
                    cached := now }]
        | none => acc
    extract_children_list now rest acc'
termination_by l _ => sizeOf l
decreasing_by
  · have := Jsonv.sizeOf_get hk
    simp
    omega
  · simp

end

/-- `extract_chrome_bookmarks`, `browser_reader.rs:244-252`: for each root
under `roots` (in the object's field order), extract its `children`. -/
def extract_chrome_bookmarks (now : Int) (json : Jsonv)
    (acc : List BrowserEntry) : List BrowserEntry :=
  match json.get "roots" with
  | some (.obj fields) =>
    fields.foldl
      (fun a f =>
        match f.snd.get "children" with
        | some children => extract_chrome_bookmark_children now children a
        | none => a)
      acc
  | _ => acc

/-- `read_chrome_data`, `browser_reader.rs:157-179`: bookmarks first (when
the JSON parsed), then history (when the copy/query succeeded). -/
def read_chrome_data (now : Int) (d : ChromeProfileData) : List BrowserEntry :=
  let entries :=
    match d.bookmarksJson with
    | some j => extract_chrome_bookmarks now j []
    | none => []
  match d.historyRows with
  | some rows => entries ++ read_chrome_history now rows
  | none => entries

/-- `read_edge_data`, `browser_reader.rs:453-456`: Edge uses the same format
as Chrome, so the function simply delegates to `read_chrome_data` (on Edge's
own profile directory). -/
def read_edge_data (now : Int) (d : ChromeProfileData) : List BrowserEntry :=
  read_chrome_data now d

/-! ### File index store (`db/files.rs`) -/

/-- `FileEntry`, `db/files.rs:13`. -/
structure FileEntry where
  id : Option Int
  path : String
  filename : String
  extension : Option String
  size : Int
  modified : Int
  hidden : Bool
  indexed : Int
deriving Repr, DecidableEq

/-- A stored row of the `files` table. -/
structure FileRow where
  id : Int
  path : String
  filename : String
  extension : Option String
  size : Int
  modified : Int
  hidden : Bool
  indexed : Int
deriving Repr, DecidableEq

/-- The `files` table: rows plus next AUTOINCREMENT id.  Its schema
(`init_files_db`, `db/files.rs:25-61`) declares `path TEXT UNIQUE NOT NULL`,
so the conflict target `(path)` of `upsert_file` is valid. -/
structure FilesDb where
  rows : List FileRow
  nextId : Int
deriving Repr, DecidableEq

/-- The list of stored paths of a `files` table, in row order. -/
def pathsOf (db : FilesDb) : List String :=
  db.rows.map (fun r => r.path)

/-- `upsert_file`, `db/files.rs:64-90`:
`INSERT INTO files ... ON CONFLICT(path) DO UPDATE SET ...` — update the
row with the matching `path` in place (keeping its `id`), or append a fresh
row.  The `last_insert_rowid` return value is dropped by every caller
(`let _ = upsert_file(...)`), so it is not modelled. -/
def upsert_file (e : FileEntry) (db : FilesDb) : FilesDb :=
  if db.rows.any (fun r => r.path == e.path) then
    ⟨db.rows.map (fun r =>
        if r.path == e.path then
          { r with
            filename := e.filename
            extension := e.extension
            size := e.size
            modified := e.modified
            hidden := e.hidden
            indexed := e.indexed }
        else r),
     db.nextId⟩
  else
    ⟨db.rows ++ [{ id := db.nextId, path := e.path, filename := e.filename,
                   extension := e.extension, size := e.size,
                   modified := e.modified, hidden := e.hidden,
                   indexed := e.indexed }],
     db.nextId + 1⟩

/-- Character comparison under SQLite's default `LIKE` semantics: `LIKE` is
case-insensitive for the ASCII letters `A`-`Z` and exact elsewhere. -/
def sqliteAsciiLower (c : Char) : Char :=
  if 'A' ≤ c ∧ c ≤ 'Z' then Char.ofNat (c.toNat + 32) else c

/-- SQLite `LIKE` pattern matching with the default (no `ESCAPE`, no
`case_sensitive_like` pragma — the repository sets neither): `%` matches any
run of characters including the empty one, `_` matches exactly one
character, and everything else matches ASCII-case-insensitively. -/
def likeMatch : List Char → List Char → Bool
  | [], s => s.isEmpty
  | p :: ps, s =>
    if p = '%' then
      s.tails.any (fun t => likeMatch ps t)
    else
      match s with
      | [] => false
      | c :: s' =>
        (if p = '_' then true else sqliteAsciiLower p = sqliteAsciiLower c)
          && likeMatch ps s'

/-- Whether a stored text value matches `LIKE '%query%'` — the pattern
`search_files` builds with `format!("%\x7b\x7d%", query)`
(`db/files.rs:98`). -/
def likeContains (query value : String) : Bool :=
  likeMatch ('%' :: query.toList ++ ['%']) value.toList

/-- Byte-lexicographic order on text, SQLite's default `BINARY` collation
used by `ORDER BY filename ASC`.  UTF-8 byte order coincides with
code-point order, so compare the code points. -/
def lexLe : List Char → List Char → Bool
  | [], _ => true
  | _ :: _, [] => false
  | a :: as, b :: bs => if a = b then lexLe as bs else decide (a < b)

/-- `BINARY`-collation `<=` on strings. -/
def strLe (a b : String) : Bool := lexLe a.toList b.toList

/-- `search_files`, `db/files.rs:93-121`:
`SELECT ... FROM files WHERE filename LIKE ?1 ORDER BY filename ASC LIMIT ?2`
with `?1 = '%query%'`. -/
def search_files (db : FilesDb) (query : String) (limit : Nat) : List FileRow :=
  ((db.rows.filter (fun r => likeContains query r.filename)).mergeSort
      (fun a b => strLe a.filename b.filename)).take limit

/-! ### File indexer (`services/file_indexer.rs`) -/

/-- `IndexerConfig`, `file_indexer.rs:19`. -/
structure IndexerConfig where
  paths : List String
  excluded_dirs : List String
  max_files : Nat
  debounce_ms : Nat
deriving Repr, DecidableEq

/-- The metadata `scan_dir` reads for a file.  The three failure points of
the code — `fs::metadata`, `metadata.modified()` and
`duration_since(UNIX_EPOCH)` — all propagate identically through `?`, so
they are folded into one `Except` around this record (with the code's
`"Failed to get metadata: "` message). -/
structure FileMeta where
  size : Int
  modified : Int
deriving Repr, DecidableEq

/-- One directory entry as `scan_dir` observes it.
`lostDirent` is a dirent the `read_dir` iterator failed to yield (dropped by
`entries.flatten()`, `file_indexer.rs:274`); `vanished` is a path that
disappeared before the `is_dir`/`is_file` checks, so both return `false`;
`badDir` is a directory whose own `fs::read_dir` fails when recursed into;
`file` carries the `fs::metadata` outcome observed after `is_file` returned
`true`. -/
inductive FsEntry where
  | lostDirent
  | vanished (name : String)
  | badDir (name : String) (msg : String)
  | dir (name : String) (children : List FsEntry)
  | file (name : String) (meta : Except String FileMeta)

/-- Model of Rust `Path::file_name().starts_with('.')` on a name
(`file_indexer.rs:326`). -/
def hiddenName (n : String) : Bool :=
  match n.toList with
  | '.' :: _ => true
  | _ => false

/-- Characters after the last `'.'` of a name, if it has one. -/
def extAfterLastDot : List Char → Option (List Char)
  | [] => none
  | c :: rest =>
    match extAfterLastDot rest with
    | some e => some e
    | none => if c = '.' then some rest else none

/-- Model of Rust `Path::extension()` on a file name: `none` when the name
has no embedded `'.'`, or when it starts with `'.'` and has no further
`'.'`; otherwise the portion after the final `'.'`. -/
def pathExtension (n : String) : Option String :=
  match n.toList with
  | [] => none
  | '.' :: rest => (extAfterLastDot rest).map List.asString
  | cs => (extAfterLastDot cs).map List.asString

/-- The `FileEntry` that `scan_dir` builds for a discovered file
(`file_indexer.rs:329-338`). -/
def scannedEntry (p n : String) (m : FileMeta) (now : Int) : FileEntry :=
  { id := none
    path := p
    filename := n
    extension := pathExtension n
    size := m.size
    modified := m.modified
    hidden := hiddenName n
    indexed := now }

/-- The mutable state `scan_dir` threads: the shared in-memory seen-paths
set (`indexed_files`) and the on-disk `files` table. -/
structure ScanSt where
  seen : List String
  db : FilesDb
deriving Repr, DecidableEq

/-- Loop body of `scan_dir` over the collected dirents
(`file_indexer.rs:287-350`): excluded names are skipped; directories are
recursed into with `?` propagation; files not in the seen set have their
metadata read with `?` propagation, are upserted (upsert errors ignored),
marked seen and counted; a vanished path falls through both `is_dir` and
`is_file` and is skipped. -/
def scan_list (cfg : IndexerConfig) (now : Int) :
    String → List FsEntry → ScanSt → Nat → Except String (ScanSt × Nat)
  | _, [], st, c => .ok (st, c)
  | dp, .lostDirent :: rest, st, c => scan_list cfg now dp rest st c
  | dp, .vanished _ :: rest, st, c => scan_list cfg now dp rest st c
  | dp, .badDir n msg :: rest, st, c =>
    if n ∈ cfg.excluded_dirs then scan_list cfg now dp rest st c
    else .error ("Failed to read directory: " ++ msg)
  | dp, .dir n children :: rest, st, c =>
    if n ∈ cfg.excluded_dirs then scan_list cfg now dp rest st c
    else
      match scan_list cfg now (dp ++ "/" ++ n) children st c with
      | .error e => .error e
      | .ok (st', c') => scan_list cfg now dp rest st' c'
  | dp, .file n meta :: rest, st, c =>
    if n ∈ cfg.excluded_dirs then scan_list cfg now dp rest st c
    else
      if (dp ++ "/" ++ n) ∈ st.seen then scan_list cfg now dp rest st c
      else
        match meta with
        | .error msg => .error ("Failed to get metadata: " ++ msg)
        | .ok m =>
          scan_list cfg now dp rest
            ⟨(dp ++ "/" ++ n) :: st.seen,
             upsert_file (scannedEntry (dp ++ "/" ++ n) n m now) st.db⟩
            (c + 1)
termination_by _ l => sizeOf l
decreasing_by all_goals simp <;> omega

/-- `scan_dir`, `file_indexer.rs:262-353`: `fs::read_dir` failure propagates
with `?`; otherwise scan the collected entries.  (The advisory
`index:progress` event is not modelled.) -/
def scan_dir (cfg : IndexerConfig) (now : Int) (dp : String)
    (listing : Except String (List FsEntry)) (st : ScanSt) (c : Nat) :
    Except String (ScanSt × Nat) :=
  match listing with
  | .error msg => .error ("Failed to read directory: " ++ msg)
  | .ok l => scan_list cfg now dp l st c

/-- Split a character list at every `'/'`, keeping empty segments — the
semantics of Rust `str::split('/')`. -/
def splitSlash : List Char → List (List Char)
  | [] => [[]]
  | '/' :: rest => [] :: splitSlash rest
  | c :: rest =>
    match splitSlash rest with
    | h :: t => (c :: h) :: t
    | [] => [[c]]

/-- Model of Rust `Path::file_name()` on a path string: the last non-empty
`/`-separated component (root and `..` edge cases are not needed here). -/
def lastComponent (p : String) : Option String :=
  ((splitSlash p.toList).reverse.find? (fun s => !s.isEmpty)).map List.asString

/-- The `FileEntry` that `index_paths` builds for an explicit file argument
(`file_indexer.rs:425-434`). -/
def indexedPathEntry (p : String) (m : FileMeta) (now : Int) : FileEntry :=
  let filename := (lastComponent p).getD "unknown"
  { id := none
    path := p
    filename := filename
    extension := pathExtension filename
    size := m.size
    modified := m.modified
    hidden := hiddenName filename
    indexed := now }

/-- One argument to `index_paths` together with what the file system reports
for it: `missing` is a path whose `exists()` is false (skipped); `dirArg`
carries the directory's listing; `fileArg` carries the metadata outcome. -/
inductive IndexArg where
  | missing (path : String)
  | dirArg (path : String) (listing : Except String (List FsEntry))
  | fileArg (path : String) (meta : Except String FileMeta)

/-- Whether an argument is an existing plain file. -/
def IndexArg.isFileArg : IndexArg → Bool
  | .fileArg _ _ => true
  | _ => false

/-- `index_paths`, `file_indexer.rs:382-446`: missing paths are skipped; a
directory argument is scanned through `scan_dir` with a temporary config
(same `excluded_dirs`) and a **fresh empty seen set**, its returned count
discarded (`Self::scan_dir(...)?;`) while its writes to the shared `files`
table are kept; a file argument has its metadata read with `?` propagation,
is upserted, added to the shared seen set, and increments the count. -/
def index_paths (cfg : IndexerConfig) (now : Int) :
    List IndexArg → ScanSt → Nat → Except String (ScanSt × Nat)
  | [], st, c => .ok (st, c)
  | .missing _ :: rest, st, c => index_paths cfg now rest st c
  | .dirArg p listing :: rest, st, c =>
    match scan_dir cfg now p listing ⟨[], st.db⟩ 0 with
    | .error e => .error e
    | .ok (st', _) => index_paths cfg now rest ⟨st.seen, st'.db⟩ c
  | .fileArg p meta :: rest, st, c =>
    match meta with
    | .error msg => .error ("Failed to get metadata: " ++ msg)
    | .ok m =>
      index_paths cfg now rest
        ⟨p :: st.seen, upsert_file (indexedPathEntry p m now) st.db⟩ (c + 1)

/-! ### Unified application search (`cmds/search.rs`) -/

/-- `ApplicationEntry`, `models/app.rs:9`. -/
structure ApplicationEntry where
  id : String
  name : String
  executable_path : String
  app_path : Option String
  icon : Option String
  usage_count : Nat
  last_launched : Option Int
  platform : String
  alternate_names : Option (List String)
deriving Repr, DecidableEq

/-- Model of Rust `str::to_lowercase` restricted to the ASCII mapping
(`'A'..'Z'` to `'a'..'z'`).  All theorems about the search condition are
stated for ASCII inputs, where this model is exact. -/
def rust_to_lowercase (s : String) : String :=
  ⟨s.toList.map sqliteAsciiLower⟩

/-- Rust `char::is_ascii_lowercase`. -/
def isAsciiLowercase (c : Char) : Bool :=
  'a' ≤ c && c ≤ 'z'

/-- Rust `char::is_alphanumeric`, modelled on its ASCII fragment (letters
and digits). -/
def isAsciiAlphanum (c : Char) : Bool :=
  ('a' ≤ c && c ≤ 'z') || ('A' ≤ c && c ≤ 'Z') || ('0' ≤ c && c ≤ '9')

/-- Rust `char::is_ascii_alphabetic` (an ASCII letter of either case). -/
def isAsciiAlpha (c : Char) : Bool :=
  ('a' ≤ c && c ≤ 'z') || ('A' ≤ c && c ≤ 'Z')

/-- Rust `str::contains(substring)`. -/
def containsSub : List Char → List Char → Bool
  | needle, [] => needle.isEmpty
  | needle, c :: rest => needle.isPrefixOf (c :: rest) || containsSub needle rest

/-- `haystack.contains(needle)` on strings. -/
def strContains (haystack needle : String) : Bool :=
  containsSub needle.toList haystack.toList

/-- Rust `String::len` is a byte count. -/
def rustStrLen (s : String) : Nat := s.utf8ByteSize

/-- Reversed spelling of `".app"`, for suffix stripping. -/
def dropAppSuffixRev : List Char → List Char
  | 'p' :: 'p' :: 'a' :: '.' :: rest => dropAppSuffixRev rest
  | cs => cs

/-- Rust `str::trim_end_matches(".app")`: strip every trailing repetition
of `".app"`. -/
def trimEndMatchesApp (s : String) : String :=
  ⟨(dropAppSuffixRev s.toList.reverse).reverse⟩

/-- The app-bundle name extracted from `executable_path`
(`cmds/search.rs:76-80`): the first `/`-separated segment ending in
`".app"`, with that suffix trimmed and lowercased; empty when there is
none. -/
def app_name_from_path (app : ApplicationEntry) : String :=
  match (splitSlash app.executable_path.toList).find?
      (fun seg => ".app".toList.isSuffixOf seg) with
  | some seg => rust_to_lowercase (trimEndMatchesApp ⟨seg⟩)
  | none => ""

/-- The gate on the initialism signal (`cmds/search.rs:95` and `:165`):
`query_lower.chars().all(|c| c.is_ascii_lowercase()) && query_lower.len() >= 2`,
evaluated on the **lowercased** query. -/
def initialism_enabled (query : String) : Bool :=
  (rust_to_lowercase query).toList.all isAsciiLowercase
    && decide (2 ≤ rustStrLen (rust_to_lowercase query))

/-- First letters of the alphanumeric words of a string
(`cmds/search.rs:97-101`): split on non-alphanumeric characters, drop empty
segments, take each word's first character. -/
def initialsOf (s : String) : String :=
  ⟨((s.toList.splitOnP (fun c => !isAsciiAlphanum c)).filter
      (fun w => !w.isEmpty)).map (fun w => w.headD ' ')⟩

/-- The name initials used for matching and scoring are additionally
lowercased (`cmds/search.rs:102`, `:171`). -/
def name_initials (app : ApplicationEntry) : String :=
  rust_to_lowercase (initialsOf app.name)

/-- The path initials (`cmds/search.rs:105-109`) are computed from the
already-lowercase `app_name_from_path`, with no further lowercasing. -/
def path_initials (app : ApplicationEntry) : String :=
  initialsOf (app_name_from_path app)

/-- `name_matches` (`cmds/search.rs:72`). -/
def name_matches (query : String) (app : ApplicationEntry) : Bool :=
  strContains (rust_to_lowercase app.name) (rust_to_lowercase query)

/-- `path_app_name_matches` (`cmds/search.rs:82-83`). -/
def path_app_name_matches (query : String) (app : ApplicationEntry) : Bool :=
  !(app_name_from_path app == "")
    && strContains (app_name_from_path app) (rust_to_lowercase query)

/-- `alternate_matches` (`cmds/search.rs:86-88`). -/
def alternate_matches (query : String) (app : ApplicationEntry) : Bool :=
  (app.alternate_names.getD []).any
    (fun n => strContains (rust_to_lowercase n) (rust_to_lowercase query))

/-- `initialism_matches` (`cmds/search.rs:92-116`): evaluated only when the
gate holds; then the lowercased query must be a prefix of the name initials
or of the path initials. -/
def initialism_matches (query : String) (app : ApplicationEntry) : Bool :=
  if initialism_enabled query then
    (rust_to_lowercase query).toList.isPrefixOf (name_initials app).toList
      || (rust_to_lowercase query).toList.isPrefixOf (path_initials app).toList
  else false

/-- The filter predicate of `unified_search` for a non-empty query
(`cmds/search.rs:70-119`). -/
def app_matches (query : String) (app : ApplicationEntry) : Bool :=
  name_matches query app || path_app_name_matches query app
    || alternate_matches query app || initialism_matches query app

/-- The filter predicate with the initialism signal removed — the behavior
the spec sentence predicts for queries that are not 2+ lowercase letters. -/
def app_matches_base (query : String) (app : ApplicationEntry) : Bool :=
  name_matches query app || path_app_name_matches query app
    || alternate_matches query app

/-- `alternate_score` (`cmds/search.rs:147-161`): fold of `acc.max(score)`
over the alternate names.  Score constants are modelled exactly in `ℚ`. -/
def alternate_score (query : String) (app : ApplicationEntry) : ℚ :=
  (app.alternate_names.getD []).foldl
    (fun acc n =>
      let nl := rust_to_lowercase n
      let ql := rust_to_lowercase query
      let s : ℚ :=
        if nl == ql then 9/10
        else if ql.toList.isPrefixOf nl.toList then 7/10
        else if strContains nl ql then 2/5
        else 0
      max acc s)
    0

/-- `initialism_score` (`cmds/search.rs:164-183`): `0.85` for an exact
initialism match, `0.65` for a prefix match, `0` otherwise; `0` whenever
the gate is off. -/
def initialism_score (query : String) (app : ApplicationEntry) : ℚ :=
  if initialism_enabled query then
    if name_initials app == rust_to_lowercase query then 17/20
    else if (rust_to_lowercase query).toList.isPrefixOf (name_initials app).toList then 13/20
    else 0
  else 0

/-- The relevance score of `unified_search` (`cmds/search.rs:131-193`).
The logarithmic usage boost `log10(usage_count)/10` is supplied as the
opaque rational `freqBoost` (ℚ has no `log10`); the claim under study only
concerns the initialism summand. -/
def app_score (query : String) (app : ApplicationEntry) (freqBoost : ℚ) : ℚ :=
  let ql := rust_to_lowercase query
  let nl := rust_to_lowercase app.name
  (if nl == ql then (1 : ℚ) else 0)
    + (if ql.toList.isPrefixOf nl.toList then (4/5 : ℚ) else 0)
    + (if strContains nl ql then (1/2 : ℚ) else 0)
    + alternate_score query app
    + initialism_score query app
    + freqBoost

/-- The score with the initialism summand removed — what the spec sentence
predicts when the query is not 2+ lowercase letters. -/
def app_score_base (query : String) (app : ApplicationEntry) (freqBoost : ℚ) : ℚ :=
  let ql := rust_to_lowercase query
  let nl := rust_to_lowercase app.name
  (if nl == ql then (1 : ℚ) else 0)
    + (if ql.toList.isPrefixOf nl.toList then (4/5 : ℚ) else 0)
    + (if strContains nl ql then (1/2 : ℚ) else 0)
    + alternate_score query app
    + freqBoost

/-! ## Claim C2 -/

/-- **C2** (confirmed): for one real-world instant — Unix-epoch microseconds
`mu`, at or after 2001-01-01 so that Safari's encoding is nonnegative —
the Chrome, Firefox and Safari normalization computations of the browser
reader all produce the same Unix-epoch-seconds value (they agree exactly,
hence certainly within the claimed ±1 second). -/
theorem c2_timestamp_normalizations_agree (mu : Int)
    (h : 978307200 * 1000000 ≤ mu) :
    chrome_normalize (chrome_encoding mu) = i64_div mu 1000000
    ∧ firefox_normalize (firefox_encoding mu) = i64_div mu 1000000
    ∧ safari_normalize (safari_encoding_trunc mu) = i64_div mu 1000000 := by
  refine ⟨?_, rfl, ?_⟩
  · show i64_div (mu + 11644473600 * 1000000) 1000000 - 11644473600
        = i64_div mu 1000000
    have e1 : i64_div (mu + 11644473600 * 1000000) 1000000
        = (mu + 11644473600 * 1000000) / 1000000 :=
      Int.tdiv_eq_ediv (by omega) (by omega)
    have e2 : i64_div mu 1000000 = mu / 1000000 :=
      Int.tdiv_eq_ediv (by omega) (by omega)
    rw [e1, e2,
      Int.add_mul_ediv_right mu 11644473600 (show (1000000 : Int) ≠ 0 by omega)]
    omega
  · show i64_div mu 1000000 - 978307200 + 978307200 = i64_div mu 1000000
    omega

/-- Witness for C2 at the concrete instant 2023-11-14 22:13:20.123456 UTC
(Unix microseconds 1700000000123456). -/
theorem c2_timestamp_normalizations_agree_witness :
    chrome_normalize (chrome_encoding 1700000000123456)
      = i64_div 1700000000123456 1000000
    ∧ firefox_normalize (firefox_encoding 1700000000123456)
      = i64_div 1700000000123456 1000000
    ∧ safari_normalize (safari_encoding_trunc 1700000000123456)
      = i64_div 1700000000123456 1000000 :=
  c2_timestamp_normalizations_agree 1700000000123456 (by omega)

/-! ## Claim C6 -/

/-- **C6** (confirmed): after the expire step of `update_cache()` (which
runs `expire_cache` once, first, regardless of which browsers succeed), a
row is retained exactly when it was present and its `cached` timestamp is
not older than `now - expiry_minutes·60`; in particular a row with
`cached = now - expiry - 1` is gone and a row with `cached = now` is kept
(for a nonnegative expiry window).  Membership depends only on `cached`:
eviction is purely time-based. -/
theorem c6_expire_cache_purely_time_based (now em : Int) (hem : 0 ≤ em)
    (db : BrowserDb) (r : BrowserRow) :
    (r ∈ (expire_cache now em db).rows
      ↔ r ∈ db.rows ∧ ¬(r.cached < now - em * 60))
    ∧ (r.cached = now - em * 60 - 1 → r ∉ (expire_cache now em db).rows)
    ∧ (r ∈ db.rows → r.cached = now → r ∈ (expire_cache now em db).rows) := by
  have hmem : r ∈ (expire_cache now em db).rows
      ↔ r ∈ db.rows ∧ ¬(r.cached < now - em * 60) := by
    simp [expire_cache, List.mem_filter]
  refine ⟨hmem, ?_, ?_⟩
  · intro hc hr
    rw [hmem] at hr
    omega
  · intro hr hc
    rw [hmem]
    exact ⟨hr, by omega⟩

/-- Witness for C6: with `now = 1000`, expiry 5 minutes, one row cached at
`now - 300 - 1 = 699` is deleted while one cached at `1000` survives. -/
theorem c6_expire_cache_purely_time_based_witness :
    (⟨1, "u1", "t", none, "chrome", "history", 0, none, none, 699⟩ : BrowserRow)
      ∉ (expire_cache 1000 5
          ⟨[⟨1, "u1", "t", none, "chrome", "history", 0, none, none, 699⟩,
            ⟨2, "u2", "t", none, "chrome", "history", 0, none, none, 1000⟩], 3⟩).rows
    ∧ (⟨2, "u2", "t", none, "chrome", "history", 0, none, none, 1000⟩ : BrowserRow)
      ∈ (expire_cache 1000 5
          ⟨[⟨1, "u1", "t", none, "chrome", "history", 0, none, none, 699⟩,
            ⟨2, "u2", "t", none, "chrome", "history", 0, none, none, 1000⟩], 3⟩).rows :=
  ⟨(c6_expire_cache_purely_time_based 1000 5 (by omega) _ _).2.1 (by decide),
   (c6_expire_cache_purely_time_based 1000 5 (by omega) _ _).2.2
     (by simp) rfl⟩

/-! ## Claim C1 -/

/-- **C1** (code bug): `init_browser_db` creates `browser_data` without any
UNIQUE constraint on `(url, browser)` — the `CREATE TABLE` has only the
`id` PRIMARY KEY and the three indexes are non-unique — so SQLite rejects
the `ON CONFLICT(url, browser) DO UPDATE` statement of
`upsert_browser_entry` at prepare time and every upsert fails.  Since
`update_cache` discards that error (`let _ = upsert_browser_entry(...)`),
no browser record is ever stored: in the spec's own scenario — two browsers
reporting the same URL with different titles in one cycle — the store ends
with zero rows for that URL instead of one row per `(url, browser)`, while
`update_cache` still reports 2 records processed. -/
theorem c1_upsert_rejected_store_stays_empty :
    upsert_browser_entry ⟨[], 1⟩
      ⟨none, "https://example.com", "Title A", none, "chrome", "bookmark",
        0, none, none, 1000⟩ = .error onConflictErr
    ∧ (update_cache
        (fun b => match b with
          | .chrome => .ok [⟨none, "https://example.com", "Title A", none,
              "chrome", "bookmark", 0, none, none, 1000⟩]
          | .firefox => .ok [⟨none, "https://example.com", "Title B", none,
              "firefox", "bookmark", 0, none, none, 1000⟩]
          | _ => .error "unsupported")
        [.chrome, .firefox] 1000 5 ⟨[], 1⟩).db.rows = []
    ∧ (update_cache
        (fun b => match b with
          | .chrome => .ok [⟨none, "https://example.com", "Title A", none,
              "chrome", "bookmark", 0, none, none, 1000⟩]
          | .firefox => .ok [⟨none, "https://example.com", "Title B", none,
              "firefox", "bookmark", 0, none, none, 1000⟩]
          | _ => .error "unsupported")
        [.chrome, .firefox] 1000 5 ⟨[], 1⟩).count = 2 :=
  ⟨rfl, rfl, rfl⟩

/-! ## Claim C5 -/

/-- The observable components of `update_cache_loop` other than the error
log do not depend on the incoming error log. -/
theorem update_cache_loop_congr
    (reads : BrowserType → Except String (List BrowserEntry)) :
    ∀ (l : List BrowserType) (o1 o2 : CycleOut),
      o1.db = o2.db → o1.count = o2.count →
      o1.attemptedUpserts = o2.attemptedUpserts →
      (update_cache_loop reads l o1).db = (update_cache_loop reads l o2).db
      ∧ (update_cache_loop reads l o1).count
          = (update_cache_loop reads l o2).count
      ∧ (update_cache_loop reads l o1).attemptedUpserts
          = (update_cache_loop reads l o2).attemptedUpserts := by
  intro l
  induction l with
  | nil =>
    intro o1 o2 h1 h2 h3
    exact ⟨h1, h2, h3⟩
  | cons b rest ih =>
    intro o1 o2 h1 h2 h3
    cases hread : reads b with
    | error e =>
      simp only [update_cache_loop, hread]
      exact ih _ _ h1 h2 h3
    | ok entries =>
      simp only [update_cache_loop, hread]
      exact ih _ _ (by simp [h1]) (by simp [h2]) (by simp [h3])

/-- Browsers already recorded as failed stay recorded through the rest of
the loop. -/
theorem update_cache_loop_failed_mono
    (reads : BrowserType → Except String (List BrowserEntry)) :
    ∀ (l : List BrowserType) (out : CycleOut) (b : BrowserType),
      b ∈ out.failedBrowsers →
      b ∈ (update_cache_loop reads l out).failedBrowsers := by
  intro l
  induction l with
  | nil => intro out b hb; exact hb
  | cons a rest ih =>
    intro out b hb
    cases hread : reads a with
    | error e =>
      simp only [update_cache_loop, hread]
      exact ih _ _ (by simp [hb])
    | ok entries =>
      simp only [update_cache_loop, hread]
      exact ih _ _ (by simp [hb])

/-- Skipping lemma behind C5: a browser whose read fails contributes
nothing to the store, the count or the attempted upserts, and is logged. -/
theorem update_cache_loop_skip
    (reads : BrowserType → Except String (List BrowserEntry))
    (bad : BrowserType) (msg : String) (hbad : reads bad = .error msg) :
    ∀ (g1 g2 : List BrowserType) (out : CycleOut),
      ((update_cache_loop reads (g1 ++ bad :: g2) out).db
          = (update_cache_loop reads (g1 ++ g2) out).db
        ∧ (update_cache_loop reads (g1 ++ bad :: g2) out).count
          = (update_cache_loop reads (g1 ++ g2) out).count
        ∧ (update_cache_loop reads (g1 ++ bad :: g2) out).attemptedUpserts
          = (update_cache_loop reads (g1 ++ g2) out).attemptedUpserts)
      ∧ bad ∈ (update_cache_loop reads (g1 ++ bad :: g2) out).failedBrowsers := by
  intro g1
  induction g1 with
  | nil =>
    intro g2 out
    simp only [List.nil_append, update_cache_loop, hbad]
    constructor
    · exact update_cache_loop_congr reads g2 _ out (by simp) (by simp) (by simp)
    · exact update_cache_loop_failed_mono reads g2 _ bad (by simp)
  | cons a g1' ih =>
    intro g2 out
    cases hread : reads a with
    | error e =>
      simp only [List.cons_append, update_cache_loop, hread]
      exact ih g2 _
    | ok entries =>
      simp only [List.cons_append, update_cache_loop, hread]
      exact ih g2 _

/-- **C5** (confirmed): in an `update_cache()` cycle, a browser whose read
fails is logged (it appears in the failure log) and skipped; the store,
the processed count and the sequence of attempted upserts are exactly
those of the same cycle run without that browser — so extraction and
upserting proceed for all remaining enabled browsers and nothing written
for the others is rolled back on its account. -/
theorem c5_failed_browser_skipped_not_fatal
    (reads : BrowserType → Except String (List BrowserEntry))
    (g1 g2 : List BrowserType) (bad : BrowserType) (msg : String)
    (hbad : reads bad = .error msg) (now em : Int) (db : BrowserDb) :
    (update_cache reads (g1 ++ bad :: g2) now em db).db
      = (update_cache reads (g1 ++ g2) now em db).db
    ∧ (update_cache reads (g1 ++ bad :: g2) now em db).count
      = (update_cache reads (g1 ++ g2) now em db).count
    ∧ (update_cache reads (g1 ++ bad :: g2) now em db).attemptedUpserts
      = (update_cache reads (g1 ++ g2) now em db).attemptedUpserts
    ∧ bad ∈ (update_cache reads (g1 ++ bad :: g2) now em db).failedBrowsers := by
  have h := update_cache_loop_skip reads bad msg hbad g1 g2
    ⟨expire_cache now em db, 0, [], []⟩
  exact ⟨h.1.1, h.1.2.1, h.1.2.2, h.2⟩

/-- Witness for C5: Safari's read fails (no macOS) between Chrome and
Firefox; the cycle's store, count and attempted upserts match the run
without Safari, and Safari is logged. -/
theorem c5_failed_browser_skipped_not_fatal_witness :
    (update_cache
        (fun b => match b with
          | .safari => .error "Safari is only available on macOS"
          | _ => .ok [⟨none, "https://e.com", "T", none, "x", "bookmark",
              0, none, none, 50⟩])
        ([.chrome] ++ .safari :: [.firefox]) 50 5 ⟨[], 1⟩).count
      = (update_cache
          (fun b => match b with
            | .safari => .error "Safari is only available on macOS"
            | _ => .ok [⟨none, "https://e.com", "T", none, "x", "bookmark",
                0, none, none, 50⟩])
          ([.chrome] ++ [.firefox]) 50 5 ⟨[], 1⟩).count
    ∧ BrowserType.safari ∈ (update_cache
        (fun b => match b with
          | .safari => .error "Safari is only available on macOS"
          | _ => .ok [⟨none, "https://e.com", "T", none, "x", "bookmark",
              0, none, none, 50⟩])
        ([.chrome] ++ .safari :: [.firefox]) 50 5 ⟨[], 1⟩).failedBrowsers :=
  ⟨(c5_failed_browser_skipped_not_fatal _ [.chrome] [.firefox] .safari
      "Safari is only available on macOS" rfl 50 5 ⟨[], 1⟩).2.1,
   (c5_failed_browser_skipped_not_fatal _ [.chrome] [.firefox] .safari
      "Safari is only available on macOS" rfl 50 5 ⟨[], 1⟩).2.2.2⟩

/-! ## Claim C10 -/

/-- Every entry the bookmark-tree flattening adds to the accumulator is
built with `browser = "chrome"`. -/
theorem extract_children_list_entries (now : Int) :
    ∀ (l : List Jsonv) (a : List BrowserEntry),
      ∀ e ∈ extract_children_list now l a, e ∈ a ∨ e.browser = "chrome" := by
  refine extract_children_list.induct now
    (fun j a => ∀ e ∈ extract_chrome_bookmark_children now j a,
      e ∈ a ∨ e.browser = "chrome")
    (fun l a => ∀ e ∈ extract_children_list now l a,
      e ∈ a ∨ e.browser = "chrome")
    ?_ ?_ ?_ ?_
  · intro children a ih e he
    simp only [extract_chrome_bookmark_children] at he
    exact ih e he
  · intro x a hx e he
    cases x with
    | arr children => exact absurd rfl (hx children)
    | str s =>
      simp only [extract_chrome_bookmark_children] at he
      exact Or.inl he
    | obj fields =>
      simp only [extract_chrome_bookmark_children] at he
      exact Or.inl he
    | other =>
      simp only [extract_chrome_bookmark_children] at he
      exact Or.inl he
  · intro a e he
    simp only [extract_children_list] at he
    exact Or.inl he
  · intro child rest a
    dsimp only
    intro ih1 ih2 e he
    simp only [extract_children_list] at he
    rcases ih2 e he with hmem | hP
    · split at hmem
      · split at hmem
        · next kids hk => exact ih1 kids hk e hmem
        · exact Or.inl hmem
      · split at hmem
        · next u hu =>
          rcases List.mem_append.mp hmem with h | h
          · exact Or.inl h
          · right
            simp only [List.mem_singleton] at h
            subst h
            rfl
        · exact Or.inl hmem
    · exact Or.inr hP

/-- Same fact for the tree entry point. -/
theorem extract_chrome_bookmark_children_entries (now : Int)
    (j : Jsonv) (a : List BrowserEntry) :
    ∀ e ∈ extract_chrome_bookmark_children now j a,
      e ∈ a ∨ e.browser = "chrome" := by
  intro e he
  cases j with
  | arr children =>
    simp only [extract_chrome_bookmark_children] at he
    exact extract_children_list_entries now children a e he
  | str s =>
    simp only [extract_chrome_bookmark_children] at he
    exact Or.inl he
  | obj fields =>
    simp only [extract_chrome_bookmark_children] at he
    exact Or.inl he
  | other =>
    simp only [extract_chrome_bookmark_children] at he
    exact Or.inl he

/-- Same fact for `extract_chrome_bookmarks` (the fold over the roots). -/
theorem extract_chrome_bookmarks_entries (now : Int) (j : Jsonv)
    (a : List BrowserEntry) :
    ∀ e ∈ extract_chrome_bookmarks now j a, e ∈ a ∨ e.browser = "chrome" := by
  have hfold : ∀ (fields : List (String × Jsonv)) (a : List BrowserEntry),
      ∀ e ∈ fields.foldl
        (fun a f =>
          match f.snd.get "children" with
          | some children => extract_chrome_bookmark_children now children a
          | none => a) a,
        e ∈ a ∨ e.browser = "chrome" := by
    intro fields
    induction fields with
    | nil => intro a e he; exact Or.inl he
    | cons f fs ih =>
      intro a e he
      simp only [List.foldl_cons] at he
      rcases ih _ e he with hmem | hP
      · cases hg : f.snd.get "children" with
        | some children =>
          rw [hg] at hmem
          exact extract_chrome_bookmark_children_entries now children a e hmem
        | none =>
          rw [hg] at hmem
          exact Or.inl hmem
      · exact Or.inr hP
  intro e he
  unfold extract_chrome_bookmarks at he
  cases hr : j.get "roots" with
  | some v =>
    rw [hr] at he
    cases v with
    | obj fields => exact hfold fields a e he
    | str s => exact Or.inl he
    | arr xs => exact Or.inl he
    | other => exact Or.inl he
  | none =>
    rw [hr] at he
    exact Or.inl he

/-- Every entry `read_chrome_data` produces carries `browser = "chrome"`. -/
theorem read_chrome_data_browser (now : Int) (d : ChromeProfileData) :
    ∀ e ∈ read_chrome_data now d, e.browser = "chrome" := by
  intro e he
  unfold read_chrome_data at he
  have hbm : ∀ e ∈ (match d.bookmarksJson with
      | some j => extract_chrome_bookmarks now j []
      | none => []), e.browser = "chrome" := by
    intro e' he'
    cases hj : d.bookmarksJson with
    | some j =>
      rw [hj] at he'
      rcases extract_chrome_bookmarks_entries now j [] e' he' with h | h
      · exact absurd h (List.not_mem_nil e')
      · exact h
    | none =>
      rw [hj] at he'
      exact absurd he' (List.not_mem_nil e')
  cases hh : d.historyRows with
  | some rows =>
    rw [hh] at he
    rcases List.mem_append.mp he with h | h
    · exact hbm e h
    · rcases List.mem_map.mp h with ⟨r, _, hr⟩
      rw [← hr]
      rfl
  | none =>
    rw [hh] at he
    exact hbm e he

/-- **C10** (confirmed): Edge extraction delegates verbatim to the Chrome
reader, and every record the Chrome reader produces — bookmark or history —
hard-codes `browser = "chrome"`.  Hence an Edge entry and a Chrome entry for
the same URL share the identity `(url, "chrome")` and the stored source
identifier never distinguishes them. -/
theorem c10_edge_records_stored_as_chrome (now : Int) (d : ChromeProfileData) :
    read_edge_data now d = read_chrome_data now d
    ∧ ∀ e ∈ read_edge_data now d, e.browser = "chrome" :=
  ⟨rfl, read_chrome_data_browser now d⟩

/-- Witness for C10: a one-row Edge history profile yields an entry whose
stored browser identifier is `"chrome"`. -/
theorem c10_edge_records_stored_as_chrome_witness :
    (chrome_history_entry 5 ⟨"https://a", some "T", 3, 13000000000000000⟩)
      ∈ read_edge_data 5 ⟨none, some [⟨"https://a", some "T", 3, 13000000000000000⟩]⟩
    ∧ (chrome_history_entry 5 ⟨"https://a", some "T", 3, 13000000000000000⟩).browser
      = "chrome" :=
  ⟨List.mem_singleton.mpr rfl,
   (c10_edge_records_stored_as_chrome 5
      ⟨none, some [⟨"https://a", some "T", 3, 13000000000000000⟩]⟩).2 _
     (List.mem_singleton.mpr rfl)⟩

/-! ## Claim C7 -/

/-- `lexLe` is total. -/
theorem lexLe_total : ∀ a b : List Char, lexLe a b || lexLe b a := by
  intro a
  induction a with
  | nil => intro b; simp [lexLe]
  | cons x xs ih =>
    intro b
    cases b with
    | nil => simp [lexLe]
    | cons y ys =>
      by_cases hxy : x = y
      · subst hxy
        simpa [lexLe] using ih ys
      · have hyx : ¬y = x := fun h => hxy h.symm
        rcases lt_trichotomy x y with h | h | h
        · simp [lexLe, hxy, hyx, h]
        · exact absurd h hxy
        · simp [lexLe, hxy, hyx, h]

/-- `lexLe` is transitive. -/
theorem lexLe_trans : ∀ a b c : List Char,
    lexLe a b = true → lexLe b c = true → lexLe a c = true := by
  intro a
  induction a with
  | nil => intro b c _ _; simp [lexLe]
  | cons x xs ih =>
    intro b c hab hbc
    cases b with
    | nil => simp [lexLe] at hab
    | cons y ys =>
      cases c with
      | nil => simp [lexLe] at hbc
      | cons z zs =>
        by_cases hxy : x = y
        · subst hxy
          by_cases hyz : x = z
          · subst hyz
            simp only [lexLe, if_pos rfl] at hab hbc ⊢
            exact ih ys zs hab hbc
          · simp only [lexLe, if_pos rfl] at hab
            simp only [lexLe, if_neg hyz] at hbc ⊢
            exact hbc
        · by_cases hyz : y = z
          · subst hyz
            simp only [lexLe, if_neg hxy] at hab ⊢
            exact hab
          · simp only [lexLe, if_neg hxy] at hab
            simp only [lexLe, if_neg hyz] at hbc
            have hxz : x < z := lt_trans (of_decide_eq_true hab) (of_decide_eq_true hbc)
            have hne : ¬x = z := ne_of_lt hxz
            simp [lexLe, hne, hxz]

/-- **C7 counterexample**: with SQLite's default `LIKE`, which is
case-insensitive on ASCII letters, `search_files` on query `"repo"` returns
a row whose filename `"REPO.txt"` does **not** contain `"repo"` as a
(case-sensitive) substring — refuting the claim that only rows whose
filename contains the query as a substring are returned. -/
theorem c7_counterexample :
    search_files ⟨[⟨1, "/x/REPO.txt", "REPO.txt", some "txt", 1, 0, false, 0⟩], 2⟩
        "repo" 10
      = [⟨1, "/x/REPO.txt", "REPO.txt", some "txt", 1, 0, false, 0⟩]
    ∧ containsSub "repo".toList "REPO.txt".toList = false := by
  constructor
  · have hf : (([⟨1, "/x/REPO.txt", "REPO.txt", some "txt", 1, 0, false, 0⟩] :
        List FileRow).filter (fun r => likeContains "repo" r.filename))
        = [⟨1, "/x/REPO.txt", "REPO.txt", some "txt", 1, 0, false, 0⟩] := by
      decide
    unfold search_files
    rw [hf, List.mergeSort_singleton]
    rfl
  · decide

/-- **C7 amended** (proved): `search_files db query limit` returns at most
`limit` rows, ordered by filename ascending under the `BINARY` collation,
each a stored row whose filename matches the SQLite pattern `%query%`
(ASCII-case-insensitively, with `%`/`_` in the query acting as wildcards);
and when at most `limit` rows match, every matching stored row is
returned. -/
theorem c7_search_files_like_semantics (db : FilesDb) (query : String)
    (limit : Nat) :
    (search_files db query limit).length ≤ limit
    ∧ List.Pairwise (fun a b => strLe a.filename b.filename = true)
        (search_files db query limit)
    ∧ (∀ r ∈ search_files db query limit,
        r ∈ db.rows ∧ likeContains query r.filename = true)
    ∧ ((db.rows.filter (fun r => likeContains query r.filename)).length ≤ limit →
        ∀ r ∈ db.rows, likeContains query r.filename = true →
          r ∈ search_files db query limit) := by
  have htrans : ∀ a b c : FileRow, strLe a.filename b.filename = true →
      strLe b.filename c.filename = true → strLe a.filename c.filename = true :=
    fun a b c hab hbc => lexLe_trans _ _ _ hab hbc
  have htotal : ∀ a b : FileRow,
      (strLe a.filename b.filename || strLe b.filename a.filename) = true :=
    fun a b => lexLe_total _ _
  refine ⟨?_, ?_, ?_, ?_⟩
  · unfold search_files
    exact List.length_take_le _ _
  · unfold search_files
    exact List.Pairwise.sublist (List.take_sublist _ _)
      (List.sorted_mergeSort htrans htotal
        (db.rows.filter (fun r => likeContains query r.filename)))
  · intro r hr
    unfold search_files at hr
    have h1 := List.mem_of_mem_take hr
    have h2 := List.mem_mergeSort.mp h1
    have h3 := List.mem_filter.mp h2
    exact ⟨h3.1, h3.2⟩
  · intro hlen r hr hl
    unfold search_files
    have hmem : r ∈ (db.rows.filter
        (fun r => likeContains query r.filename)).mergeSort
          (fun a b => strLe a.filename b.filename) :=
      List.mem_mergeSort.mpr (List.mem_filter.mpr ⟨hr, hl⟩)
    have hlen' : ((db.rows.filter
        (fun r => likeContains query r.filename)).mergeSort
          (fun a b => strLe a.filename b.filename)).length ≤ limit := by
      rw [(List.mergeSort_perm _ _).length_eq]
      exact hlen
    rw [List.take_of_length_le hlen']
    exact hmem

/-- Witness for C7 at a concrete store: the `"REPO.txt"` row is in the
result (completeness part) and the result is within the limit. -/
theorem c7_search_files_like_semantics_witness :
    (⟨1, "/x/REPO.txt", "REPO.txt", some "txt", 1, 0, false, 0⟩ : FileRow)
      ∈ search_files
          ⟨[⟨1, "/x/REPO.txt", "REPO.txt", some "txt", 1, 0, false, 0⟩], 2⟩
          "repo" 10 :=
  (c7_search_files_like_semantics
      ⟨[⟨1, "/x/REPO.txt", "REPO.txt", some "txt", 1, 0, false, 0⟩], 2⟩
      "repo" 10).2.2.2 (by decide) _ (by simp) (by decide)

/-! ## Claim C9 -/

/-- Order on `UInt32` is the order of the underlying numerals. -/
theorem uint32_le_iff (a b : UInt32) : a ≤ b ↔ a.toNat ≤ b.toNat := by
  rw [UInt32.le_def, BitVec.le_def]; rfl

/-- Order on `Char` is the order of the code points. -/
theorem char_le_iff (a b : Char) : a ≤ b ↔ a.toNat ≤ b.toNat := by
  rw [Char.le_def]; exact uint32_le_iff _ _

/-- `Char.ofNat` is faithful below the surrogate range. -/
theorem char_toNat_ofNat (n : Nat) (h1 : n < 55296) : (Char.ofNat n).toNat = n := by
  unfold Char.ofNat
  rw [dif_pos (Or.inl h1)]
  unfold Char.ofNatAux Char.toNat
  simp [UInt32.toNat, BitVec.toNat_ofNatLt]

/-- An ASCII character encodes in one UTF-8 byte. -/
theorem utf8Size_eq_one (c : Char) (h : c.toNat ≤ 127) : c.utf8Size = 1 := by
  unfold Char.utf8Size
  dsimp only
  split
  · rfl
  · next hneg =>
    apply absurd _ hneg
    rw [uint32_le_iff]
    show c.toNat ≤ 127
    exact h

/-- ASCII lowercasing keeps characters in the ASCII range. -/
theorem sqliteAsciiLower_ascii (c : Char) (h : c.toNat < 128) :
    (sqliteAsciiLower c).toNat < 128 := by
  unfold sqliteAsciiLower
  split
  · next hc =>
    rw [char_le_iff, char_le_iff] at hc
    rw [char_toNat_ofNat _ (by omega)]
    have h65 : ('A' : Char).toNat = 65 := rfl
    have h90 : ('Z' : Char).toNat = 90 := rfl
    omega
  · exact h

/-- For an ASCII character, the lowercased character is an ASCII lowercase
letter exactly when the character was an ASCII letter of either case. -/
theorem lower_lowercase_iff_alpha (c : Char) (h : c.toNat < 128) :
    isAsciiLowercase (sqliteAsciiLower c) = isAsciiAlpha c := by
  have h65 : ('A' : Char).toNat = 65 := rfl
  have h90 : ('Z' : Char).toNat = 90 := rfl
  have h97 : ('a' : Char).toNat = 97 := rfl
  have h122 : ('z' : Char).toNat = 122 := rfl
  unfold sqliteAsciiLower
  split
  · next hc =>
    rw [char_le_iff, char_le_iff, h65, h90] at hc
    have hx : (Char.ofNat (c.toNat + 32)).toNat = c.toNat + 32 :=
      char_toNat_ofNat _ (by omega)
    rw [Bool.eq_iff_iff]
    simp only [isAsciiLowercase, isAsciiAlpha, Bool.and_eq_true,
      Bool.or_eq_true, decide_eq_true_eq, char_le_iff, hx, h65, h90, h97, h122]
    omega
  · next hc =>
    rw [not_and_or, char_le_iff, char_le_iff, h65, h90] at hc
    rw [Bool.eq_iff_iff]
    simp only [isAsciiLowercase, isAsciiAlpha, Bool.and_eq_true,
      Bool.or_eq_true, decide_eq_true_eq, char_le_iff, h65, h90, h97, h122]
    omega

/-- Over an ASCII list, `all isAsciiLowercase` after lowercasing coincides
with `all isAsciiAlpha` before. -/
theorem all_lower_eq_all_alpha :
    ∀ l : List Char, (∀ c ∈ l, c.toNat < 128) →
      (l.map sqliteAsciiLower).all isAsciiLowercase = l.all isAsciiAlpha := by
  intro l
  induction l with
  | nil => intro _; rfl
  | cons c cs ih =>
    intro h
    simp only [List.map_cons, List.all_cons]
    rw [lower_lowercase_iff_alpha c (h c (by simp)),
      ih (fun x hx => h x (by simp [hx]))]

/-- The byte length of an ASCII string equals its character count. -/
theorem utf8ByteSize_ascii :
    ∀ l : List Char, (∀ c ∈ l, c.toNat < 128) →
      (String.mk l).utf8ByteSize = l.length := by
  intro l
  induction l with
  | nil => intro _; rfl
  | cons c cs ih =>
    intro h
    show String.utf8ByteSize.go (c :: cs) = cs.length + 1
    have hgo : String.utf8ByteSize.go (c :: cs)
        = String.utf8ByteSize.go cs + c.utf8Size := rfl
    rw [hgo, utf8Size_eq_one c (by have := h c (by simp); omega)]
    have : String.utf8ByteSize.go cs = cs.length := ih (fun x hx => h x (by simp [hx]))
    omega

/-- **C9 counterexample**: the initialism gate tests the *lowercased* query,
so the uppercase query `"VS"` — which does not consist of lowercase
letters — still gets initialism matching: the app `"Visual Studio"`, whose
name, path and alternates match nothing, is admitted into the results by
the initialism signal alone, contradicting the claim that for such a query
the signal contributes nothing to filtering. -/
theorem c9_counterexample :
    app_matches "VS"
      ⟨"vs1", "Visual Studio", "/opt/visualstudio/bin/vs", none, none, 0,
        none, "linux", none⟩ = true
    ∧ app_matches_base "VS"
      ⟨"vs1", "Visual Studio", "/opt/visualstudio/bin/vs", none, none, 0,
        none, "linux", none⟩ = false
    ∧ "VS".toList.all isAsciiLowercase = false := by
  refine ⟨by decide, by decide, by decide⟩

/-- **C9 amended** (proved): for an ASCII query, the initialism signal is
evaluated iff the query consists of 2 or more ASCII *letters of either
case* (the gate lowercases the query first, so `"VS"` also passes); and
whenever the gate is off, the signal contributes neither to the filter
predicate nor to the score. -/
theorem c9_initialism_gate (q : String) (hq : ∀ c ∈ q.toList, c.toNat < 128) :
    initialism_enabled q
      = (decide (2 ≤ q.toList.length) && q.toList.all isAsciiAlpha)
    ∧ (initialism_enabled q = false →
        ∀ (app : ApplicationEntry) (fb : ℚ),
          app_matches q app = app_matches_base q app
          ∧ app_score q app fb = app_score_base q app fb) := by
  constructor
  · have h1 : (rust_to_lowercase q).toList.all isAsciiLowercase
        = q.toList.all isAsciiAlpha := by
      show (q.toList.map sqliteAsciiLower).all isAsciiLowercase = _
      exact all_lower_eq_all_alpha q.toList hq
    have h2 : rustStrLen (rust_to_lowercase q) = q.toList.length := by
      show (String.mk (q.toList.map sqliteAsciiLower)).utf8ByteSize = _
      rw [utf8ByteSize_ascii (q.toList.map sqliteAsciiLower)
        (by
          intro c hc
          rcases List.mem_map.mp hc with ⟨x, hx, rfl⟩
          exact sqliteAsciiLower_ascii x (hq x hx))]
      exact List.length_map _ _
    unfold initialism_enabled
    rw [h1, h2, Bool.and_comm]
  · intro h app fb
    constructor
    · simp [app_matches, app_matches_base, initialism_matches, h]
    · simp only [app_score, app_score_base, initialism_score, h,
        Bool.false_eq_true, if_false]
      ring

/-- Witness for C9: the query `"a1"` (a digit, so the gate is off) filters
and scores identically with and without the initialism signal. -/
theorem c9_initialism_gate_witness :
    app_matches "a1"
        ⟨"vs1", "Visual Studio", "/opt/visualstudio/bin/vs", none, none, 0,
          none, "linux", none⟩
      = app_matches_base "a1"
        ⟨"vs1", "Visual Studio", "/opt/visualstudio/bin/vs", none, none, 0,
          none, "linux", none⟩
    ∧ app_score "a1"
        ⟨"vs1", "Visual Studio", "/opt/visualstudio/bin/vs", none, none, 0,
          none, "linux", none⟩ 0
      = app_score_base "a1"
        ⟨"vs1", "Visual Studio", "/opt/visualstudio/bin/vs", none, none, 0,
          none, "linux", none⟩ 0 :=
  (c9_initialism_gate "a1" (by decide)).2 (by decide) _ 0

/-! ## Claim C3 -/

/-- A dirent whose one-step processing is the identity can be dropped from
anywhere in a listing without changing the scan. -/
theorem scan_list_skip (cfg : IndexerConfig) (now : Int) (e₀ : FsEntry)
    (hskip : ∀ (dp : String) (rest : List FsEntry) (st : ScanSt) (c : Nat),
      scan_list cfg now dp (e₀ :: rest) st c = scan_list cfg now dp rest st c) :
    ∀ (pre : List FsEntry) (dp : String) (post : List FsEntry)
      (st : ScanSt) (c : Nat),
      scan_list cfg now dp (pre ++ e₀ :: post) st c
        = scan_list cfg now dp (pre ++ post) st c := by
  intro pre
  induction pre with
  | nil =>
    intro dp post st c
    simp only [List.nil_append]
    exact hskip dp post st c
  | cons e pre' ih =>
    intro dp post st c
    cases e with
    | lostDirent =>
      simp only [List.cons_append, scan_list]
      exact ih dp post st c
    | vanished m =>
      simp only [List.cons_append, scan_list]
      exact ih dp post st c
    | badDir m msg =>
      by_cases h : m ∈ cfg.excluded_dirs
      · simp only [List.cons_append, scan_list, if_pos h]
        exact ih dp post st c
      · simp only [List.cons_append, scan_list, if_neg h]
    | dir m children =>
      by_cases h : m ∈ cfg.excluded_dirs
      · simp only [List.cons_append, scan_list, if_pos h]
        exact ih dp post st c
      · simp only [List.cons_append, scan_list, if_neg h]
        cases hs : scan_list cfg now (dp ++ "/" ++ m) children st c with
        | error e => rfl
        | ok r => exact ih dp post r.1 r.2
    | file m meta =>
      cases meta with
      | error msg =>
        by_cases h : m ∈ cfg.excluded_dirs
        · simp only [List.cons_append, scan_list, if_pos h]
          exact ih dp post st c
        · by_cases h2 : (dp ++ "/" ++ m) ∈ st.seen
          · simp only [List.cons_append, scan_list, if_neg h, if_pos h2]
            exact ih dp post st c
          · simp only [List.cons_append, scan_list, if_neg h, if_neg h2]
      | ok fm =>
        by_cases h : m ∈ cfg.excluded_dirs
        · simp only [List.cons_append, scan_list, if_pos h]
          exact ih dp post st c
        · by_cases h2 : (dp ++ "/" ++ m) ∈ st.seen
          · simp only [List.cons_append, scan_list, if_neg h, if_pos h2]
            exact ih dp post st c
          · simp only [List.cons_append, scan_list, if_neg h, if_neg h2]
            exact ih dp post _ _

/-- **C3 counterexample**: three files are listed; the middle one's
`fs::metadata` fails (it vanished after passing `is_file`).  The scan does
not skip just that entry — the `?` on the metadata read aborts the whole
walk with an error, and the third file is never indexed. -/
theorem c3_counterexample :
    scan_list ⟨[], [], 100000, 5000⟩ 50 "/root"
      [FsEntry.file "a" (.ok ⟨10, 20⟩),
       FsEntry.file "b" (.error "gone"),
       FsEntry.file "c" (.ok ⟨30, 40⟩)]
      ⟨[], ⟨[], 1⟩⟩ 0
    = .error "Failed to get metadata: gone" := by
  simp [scan_list, upsert_file, scannedEntry, pathExtension, extAfterLastDot,
    hiddenName]

/-- **C3 amended** (proved): a dirent the listing iterator fails to yield
(`lostDirent`, dropped by `flatten`) or a path that vanishes before the
`is_dir`/`is_file` checks — the usual fate of a file deleted between the
directory listing and the metadata read — is silently skipped and the walk
of the remaining entries continues unchanged; but an I/O error on the
`fs::metadata` call of an entry that still passes `is_file` aborts the
entire walk with an error. -/
theorem c3_vanished_skipped_metadata_error_aborts :
    (∀ (cfg : IndexerConfig) (now : Int) (dp : String)
        (pre post : List FsEntry) (n : String) (st : ScanSt) (c : Nat),
        scan_list cfg now dp (pre ++ FsEntry.vanished n :: post) st c
          = scan_list cfg now dp (pre ++ post) st c
        ∧ scan_list cfg now dp (pre ++ FsEntry.lostDirent :: post) st c
          = scan_list cfg now dp (pre ++ post) st c)
    ∧ (∀ (cfg : IndexerConfig) (now : Int) (dp : String) (n msg : String)
        (rest : List FsEntry) (st : ScanSt) (c : Nat),
        n ∉ cfg.excluded_dirs → (dp ++ "/" ++ n) ∉ st.seen →
        scan_list cfg now dp (FsEntry.file n (.error msg) :: rest) st c
          = .error ("Failed to get metadata: " ++ msg)) := by
  constructor
  · intro cfg now dp pre post n st c
    constructor
    · exact scan_list_skip cfg now (FsEntry.vanished n)
        (fun dp rest st c => by simp only [scan_list]) pre dp post st c
    · exact scan_list_skip cfg now FsEntry.lostDirent
        (fun dp rest st c => by simp only [scan_list]) pre dp post st c
  · intro cfg now dp n msg rest st c hn hseen
    simp only [scan_list, if_neg hn, if_neg hseen]

/-- Witness for C3's amended claim at concrete inputs: a vanished entry in
the middle of a listing changes nothing, and a single metadata failure
aborts the walk. -/
theorem c3_vanished_skipped_metadata_error_aborts_witness :
    (scan_list ⟨[], [], 100000, 5000⟩ 50 "/root"
        ([FsEntry.file "a" (.ok ⟨10, 20⟩)] ++ FsEntry.vanished "b"
          :: [FsEntry.file "c" (.ok ⟨30, 40⟩)]) ⟨[], ⟨[], 1⟩⟩ 0
      = scan_list ⟨[], [], 100000, 5000⟩ 50 "/root"
        ([FsEntry.file "a" (.ok ⟨10, 20⟩)] ++ [FsEntry.file "c" (.ok ⟨30, 40⟩)])
        ⟨[], ⟨[], 1⟩⟩ 0)
    ∧ scan_list ⟨[], [], 100000, 5000⟩ 50 "/root"
        [FsEntry.file "b" (.error "gone")] ⟨[], ⟨[], 1⟩⟩ 0
      = .error ("Failed to get metadata: " ++ "gone") :=
  ⟨(c3_vanished_skipped_metadata_error_aborts.1 ⟨[], [], 100000, 5000⟩ 50
      "/root" [FsEntry.file "a" (.ok ⟨10, 20⟩)]
      [FsEntry.file "c" (.ok ⟨30, 40⟩)] "b" ⟨[], ⟨[], 1⟩⟩ 0).1,
   c3_vanished_skipped_metadata_error_aborts.2 ⟨[], [], 100000, 5000⟩ 50
      "/root" "b" "gone" [] ⟨[], ⟨[], 1⟩⟩ 0 (by simp) (by simp)⟩

/-! ## Claim C8 -/

/-- When a row with the entry's path exists, `upsert_file` leaves the
stored paths unchanged (update in place). -/
theorem upsert_file_paths_update (e : FileEntry) (db : FilesDb)
    (h : db.rows.any (fun r => r.path == e.path) = true) :
    pathsOf (upsert_file e db) = pathsOf db := by
  unfold upsert_file pathsOf
  rw [if_pos h]
  simp only [List.map_map]
  apply List.map_congr_left
  intro r _
  show (if r.path == e.path then _ else r).path = r.path
  split <;> rfl

/-- When no row has the entry's path, `upsert_file` appends exactly it. -/
theorem upsert_file_paths_insert (e : FileEntry) (db : FilesDb)
    (h : db.rows.any (fun r => r.path == e.path) = false) :
    pathsOf (upsert_file e db) = pathsOf db ++ [e.path] := by
  unfold upsert_file pathsOf
  rw [if_neg (by simp [h])]
  simp

/-- `upsert_file` only grows the set of stored paths. -/
theorem upsert_file_paths_mono (e : FileEntry) (db : FilesDb) :
    ∀ p ∈ pathsOf db, p ∈ pathsOf (upsert_file e db) := by
  intro p hp
  cases hany : db.rows.any (fun r => r.path == e.path) with
  | true => rw [upsert_file_paths_update e db hany]; exact hp
  | false => rw [upsert_file_paths_insert e db hany]; exact List.mem_append_left _ hp

/-- The upserted path is stored afterwards. -/
theorem upsert_file_path_mem (e : FileEntry) (db : FilesDb) :
    e.path ∈ pathsOf (upsert_file e db) := by
  cases hany : db.rows.any (fun r => r.path == e.path) with
  | true =>
    rw [upsert_file_paths_update e db hany]
    rw [List.any_eq_true] at hany
    rcases hany with ⟨r, hr, hpr⟩
    unfold pathsOf
    exact List.mem_map.mpr ⟨r, hr, (beq_iff_eq.mp hpr)⟩
  | false =>
    rw [upsert_file_paths_insert e db hany]
    simp

/-- `upsert_file` never duplicates a path. -/
theorem upsert_file_paths_nodup (e : FileEntry) (db : FilesDb)
    (h : (pathsOf db).Nodup) : (pathsOf (upsert_file e db)).Nodup := by
  cases hany : db.rows.any (fun r => r.path == e.path) with
  | true => rw [upsert_file_paths_update e db hany]; exact h
  | false =>
    rw [upsert_file_paths_insert e db hany]
    rw [List.nodup_append]
    refine ⟨h, List.nodup_singleton _, ?_⟩
    intro p hp hpe
    simp only [List.mem_singleton] at hpe
    subst hpe
    rw [List.any_eq_false] at hany
    unfold pathsOf at hp
    rcases List.mem_map.mp hp with ⟨r, hr, hpath⟩
    exact hany r hr (by simp [hpath])

/-- On a path conflict `upsert_file` overwrites in place: the row count is
unchanged and the row at that path carries exactly the new field values. -/
theorem upsert_file_update_in_place (e : FileEntry) (db : FilesDb)
    (hany : db.rows.any (fun r => r.path == e.path) = true) :
    (upsert_file e db).rows.length = db.rows.length
    ∧ ∀ r ∈ (upsert_file e db).rows, r.path = e.path →
        r.filename = e.filename ∧ r.extension = e.extension ∧ r.size = e.size
        ∧ r.modified = e.modified ∧ r.hidden = e.hidden
        ∧ r.indexed = e.indexed := by
  unfold upsert_file
  rw [if_pos hany]
  constructor
  · simp
  · intro r hr hpr
    rcases List.mem_map.mp hr with ⟨r₀, _, heq⟩
    by_cases hb : (r₀.path == e.path) = true
    · rw [if_pos hb] at heq
      rw [← heq]
      exact ⟨rfl, rfl, rfl, rfl, rfl, rfl⟩
    · rw [if_neg hb] at heq
      rw [← heq] at hpr
      exact absurd (by simp [hpr]) hb

/-- Seen paths only accumulate during a scan. -/
theorem scan_list_seen_mono (cfg : IndexerConfig) (now : Int) :
    ∀ (dp : String) (l : List FsEntry) (st : ScanSt) (c : Nat),
      ∀ (st' : ScanSt) (c' : Nat),
        scan_list cfg now dp l st c = .ok (st', c') →
        ∀ p ∈ st.seen, p ∈ st'.seen := by
  refine scan_list.induct cfg now
    (fun dp l st c => ∀ (st' : ScanSt) (c' : Nat),
      scan_list cfg now dp l st c = .ok (st', c') → ∀ p ∈ st.seen, p ∈ st'.seen)
    ?_ ?_ ?_ ?_ ?_ ?_ ?_ ?_ ?_ ?_ ?_ ?_
  · intro dp st c st' c' heq p hp
    simp only [scan_list, Except.ok.injEq, Prod.mk.injEq] at heq
    rw [← heq.1]
    exact hp
  · intro dp rest st c ih st' c' heq p hp
    simp only [scan_list] at heq
    exact ih st' c' heq p hp
  · intro dp n rest st c ih st' c' heq p hp
    simp only [scan_list] at heq
    exact ih st' c' heq p hp
  · intro dp n msg rest st c hn ih st' c' heq p hp
    simp only [scan_list, if_pos hn] at heq
    exact ih st' c' heq p hp
  · intro dp n msg rest st c hn st' c' heq p hp
    simp only [scan_list, if_neg hn] at heq
    exact Except.noConfusion heq
  · intro dp n children rest st c hn ih st' c' heq p hp
    simp only [scan_list, if_pos hn] at heq
    exact ih st' c' heq p hp
  · intro dp n children rest st c hn e he ih st' c' heq p hp
    simp only [scan_list, if_neg hn] at heq
    rw [he] at heq
    exact Except.noConfusion heq
  · intro dp n children rest st c hn st₁ c₁ hok ih1 ih2 st' c' heq p hp
    simp only [scan_list, if_neg hn] at heq
    rw [hok] at heq
    exact ih2 st' c' heq p (ih1 st₁ c₁ hok p hp)
  · intro dp n meta rest st c hn ih st' c' heq p hp
    cases meta with
    | error msg =>
      simp only [scan_list, if_pos hn] at heq
      exact ih st' c' heq p hp
    | ok m =>
      simp only [scan_list, if_pos hn] at heq
      exact ih st' c' heq p hp
  · intro dp n meta rest st c hn hseen ih st' c' heq p hp
    cases meta with
    | error msg =>
      simp only [scan_list, if_neg hn, if_pos hseen] at heq
      exact ih st' c' heq p hp
    | ok m =>
      simp only [scan_list, if_neg hn, if_pos hseen] at heq
      exact ih st' c' heq p hp
  · intro dp n rest st c hn hseen msg st' c' heq p hp
    simp only [scan_list, if_neg hn, if_neg hseen] at heq
    exact Except.noConfusion heq
  · intro dp n rest st c hn hseen m ih st' c' heq p hp
    simp only [scan_list, if_neg hn, if_neg hseen] at heq
    exact ih st' c' heq p (List.mem_cons_of_mem _ hp)

/-- Rescanning from any state that already contains everything a
successful scan marked as seen is a no-op: no writes, no new seen paths,
no counted files — regardless of the rescan's clock. -/
theorem scan_list_noop (cfg : IndexerConfig) (now : Int) :
    ∀ (dp : String) (l : List FsEntry) (st : ScanSt) (c : Nat),
      ∀ (st' : ScanSt) (c' : Nat),
        scan_list cfg now dp l st c = .ok (st', c') →
        ∀ (now₂ : Int) (st₂ : ScanSt) (c₂ : Nat),
          (∀ p ∈ st'.seen, p ∈ st₂.seen) →
          scan_list cfg now₂ dp l st₂ c₂ = .ok (st₂, c₂) := by
  refine scan_list.induct cfg now
    (fun dp l st c => ∀ (st' : ScanSt) (c' : Nat),
      scan_list cfg now dp l st c = .ok (st', c') →
      ∀ (now₂ : Int) (st₂ : ScanSt) (c₂ : Nat),
        (∀ p ∈ st'.seen, p ∈ st₂.seen) →
        scan_list cfg now₂ dp l st₂ c₂ = .ok (st₂, c₂))
    ?_ ?_ ?_ ?_ ?_ ?_ ?_ ?_ ?_ ?_ ?_ ?_
  · intro dp st c st' c' heq now₂ st₂ c₂ hsub
    simp only [scan_list]
  · intro dp rest st c ih st' c' heq now₂ st₂ c₂ hsub
    simp only [scan_list] at heq ⊢
    exact ih st' c' heq now₂ st₂ c₂ hsub
  · intro dp n rest st c ih st' c' heq now₂ st₂ c₂ hsub
    simp only [scan_list] at heq ⊢
    exact ih st' c' heq now₂ st₂ c₂ hsub
  · intro dp n msg rest st c hn ih st' c' heq now₂ st₂ c₂ hsub
    simp only [scan_list, if_pos hn] at heq ⊢
    exact ih st' c' heq now₂ st₂ c₂ hsub
  · intro dp n msg rest st c hn st' c' heq now₂ st₂ c₂ hsub
    simp only [scan_list, if_neg hn] at heq
    exact Except.noConfusion heq
  · intro dp n children rest st c hn ih st' c' heq now₂ st₂ c₂ hsub
    simp only [scan_list, if_pos hn] at heq ⊢
    exact ih st' c' heq now₂ st₂ c₂ hsub
  · intro dp n children rest st c hn e he ih st' c' heq now₂ st₂ c₂ hsub
    simp only [scan_list, if_neg hn] at heq
    rw [he] at heq
    exact Except.noConfusion heq
  · intro dp n children rest st c hn st₁ c₁ hok ih1 ih2 st' c' heq now₂ st₂ c₂ hsub
    simp only [scan_list, if_neg hn] at heq
    rw [hok] at heq
    have hmono := scan_list_seen_mono cfg now dp rest st₁ c₁ st' c' heq
    have hchild := ih1 st₁ c₁ hok now₂ st₂ c₂
      (fun p hp => hsub p (hmono p hp))
    simp only [scan_list, if_neg hn, hchild]
    exact ih2 st' c' heq now₂ st₂ c₂ hsub
  · intro dp n meta rest st c hn ih st' c' heq now₂ st₂ c₂ hsub
    cases meta with
    | error msg =>
      simp only [scan_list, if_pos hn] at heq ⊢
      exact ih st' c' heq now₂ st₂ c₂ hsub
    | ok m =>
      simp only [scan_list, if_pos hn] at heq ⊢
      exact ih st' c' heq now₂ st₂ c₂ hsub
  · intro dp n meta rest st c hn hseen ih st' c' heq now₂ st₂ c₂ hsub
    cases meta with
    | error msg =>
      simp only [scan_list, if_neg hn, if_pos hseen] at heq
      have hmono := scan_list_seen_mono cfg now dp rest st c st' c' heq
      have hseen₂ : (dp ++ "/" ++ n) ∈ st₂.seen := hsub _ (hmono _ hseen)
      simp only [scan_list, if_neg hn, if_pos hseen₂]
      exact ih st' c' heq now₂ st₂ c₂ hsub
    | ok m =>
      simp only [scan_list, if_neg hn, if_pos hseen] at heq
      have hmono := scan_list_seen_mono cfg now dp rest st c st' c' heq
      have hseen₂ : (dp ++ "/" ++ n) ∈ st₂.seen := hsub _ (hmono _ hseen)
      simp only [scan_list, if_neg hn, if_pos hseen₂]
      exact ih st' c' heq now₂ st₂ c₂ hsub
  · intro dp n rest st c hn hseen msg st' c' heq now₂ st₂ c₂ hsub
    simp only [scan_list, if_neg hn, if_neg hseen] at heq
    exact Except.noConfusion heq
  · intro dp n rest st c hn hseen m ih st' c' heq now₂ st₂ c₂ hsub
    simp only [scan_list, if_neg hn, if_neg hseen] at heq
    have hmono := scan_list_seen_mono cfg now dp rest _ _ st' c' heq
    have hseen₂ : (dp ++ "/" ++ n) ∈ st₂.seen :=
      hsub _ (hmono _ (List.mem_cons_self _ _))
    simp only [scan_list, if_neg hn, if_pos hseen₂]
    exact ih st' c' heq now₂ st₂ c₂ hsub

/-- **C8** (confirmed): (1) scanning the same unchanged listing a second
time — from the state a successful first scan left, at any later clock —
returns exactly the same state: same rows, same field values, no new
writes; (2) `path` is the sole identity of the `files` table: upserting
never duplicates a path, and when the path already exists the row is
overwritten in place (row count unchanged, its fields replaced by the new
values). -/
theorem c8_reindexing_idempotent :
    (∀ (cfg : IndexerConfig) (now₁ now₂ : Int) (dp : String)
        (l : List FsEntry) (st : ScanSt) (c c₂ : Nat) (st' : ScanSt) (c' : Nat),
        scan_list cfg now₁ dp l st c = .ok (st', c') →
        scan_list cfg now₂ dp l st' c₂ = .ok (st', c₂))
    ∧ (∀ (e : FileEntry) (db : FilesDb),
        (pathsOf db).Nodup →
        (pathsOf (upsert_file e db)).Nodup
        ∧ (db.rows.any (fun r => r.path == e.path) = true →
            (upsert_file e db).rows.length = db.rows.length
            ∧ ∀ r ∈ (upsert_file e db).rows, r.path = e.path →
                r.filename = e.filename ∧ r.extension = e.extension
                ∧ r.size = e.size ∧ r.modified = e.modified
                ∧ r.hidden = e.hidden ∧ r.indexed = e.indexed)) := by
  constructor
  · intro cfg now₁ now₂ dp l st c c₂ st' c' h
    exact scan_list_noop cfg now₁ dp l st c st' c' h now₂ st' c₂
      (fun p hp => hp)
  · intro e db hnd
    exact ⟨upsert_file_paths_nodup e db hnd,
      fun hany => upsert_file_update_in_place e db hany⟩

/-- Witness for C8: after indexing `/r/a` once, a second scan at a later
clock returns the identical store; and re-upserting the already-present
path `/r/a` keeps one row with the new field values. -/
theorem c8_reindexing_idempotent_witness :
    scan_list ⟨[], [], 100000, 5000⟩ 9 "/r" [FsEntry.file "a" (.ok ⟨1, 2⟩)]
        ⟨["/r/a"], ⟨[⟨1, "/r/a", "a", none, 1, 2, false, 5⟩], 2⟩⟩ 0
      = .ok (⟨["/r/a"], ⟨[⟨1, "/r/a", "a", none, 1, 2, false, 5⟩], 2⟩⟩, 0)
    ∧ (upsert_file ⟨none, "/r/a", "a", none, 1, 9, false, 9⟩
        ⟨[⟨1, "/r/a", "a", none, 1, 2, false, 5⟩], 2⟩).rows.length
      = (⟨[⟨1, "/r/a", "a", none, 1, 2, false, 5⟩], 2⟩ : FilesDb).rows.length :=
  ⟨c8_reindexing_idempotent.1 ⟨[], [], 100000, 5000⟩ 5 9 "/r"
      [FsEntry.file "a" (.ok ⟨1, 2⟩)] ⟨[], ⟨[], 1⟩⟩ 0 0 _ 1
      (by simp [scan_list, upsert_file, scannedEntry, pathExtension,
        extAfterLastDot, hiddenName]),
   ((c8_reindexing_idempotent.2 ⟨none, "/r/a", "a", none, 1, 9, false, 9⟩
      ⟨[⟨1, "/r/a", "a", none, 1, 2, false, 5⟩], 2⟩ (by decide)).2
      (by decide)).1⟩

/-! ## Claim C4 -/

/-- A scan only grows the set of stored paths. -/
theorem scan_list_paths_mono (cfg : IndexerConfig) (now : Int) :
    ∀ (dp : String) (l : List FsEntry) (st : ScanSt) (c : Nat)
      (st' : ScanSt) (c' : Nat),
      scan_list cfg now dp l st c = .ok (st', c') →
      ∀ p ∈ pathsOf st.db, p ∈ pathsOf st'.db := by
  refine scan_list.induct cfg now
    (fun dp l st c => ∀ (st' : ScanSt) (c' : Nat),
      scan_list cfg now dp l st c = .ok (st', c') →
      ∀ p ∈ pathsOf st.db, p ∈ pathsOf st'.db)
    ?_ ?_ ?_ ?_ ?_ ?_ ?_ ?_ ?_ ?_ ?_ ?_ <;>
      first
      | (intro dp st c st' c' heq p hp
         simp only [scan_list, Except.ok.injEq, Prod.mk.injEq] at heq
         rw [← heq.1]
         exact hp)
      | (intro dp rest st c ih st' c' heq p hp
         simp only [scan_list] at heq
         exact ih st' c' heq p hp)
      | (intro dp n rest st c ih st' c' heq p hp
         simp only [scan_list] at heq
         exact ih st' c' heq p hp)
      | (intro dp n msg rest st c hn ih st' c' heq p hp
         simp only [scan_list, if_pos hn] at heq
         exact ih st' c' heq p hp)
      | (intro dp n msg rest st c hn st' c' heq p hp
         simp only [scan_list, if_neg hn] at heq
         exact Except.noConfusion heq)
      | (intro dp n children rest st c hn ih st' c' heq p hp
         simp only [scan_list, if_pos hn] at heq
         exact ih st' c' heq p hp)
      | (intro dp n children rest st c hn e he ih st' c' heq p hp
         simp only [scan_list, if_neg hn] at heq
         rw [he] at heq
         exact Except.noConfusion heq)
      | (intro dp n children rest st c hn st₁ c₁ hok ih1 ih2 st' c' heq p hp
         simp only [scan_list, if_neg hn] at heq
         rw [hok] at heq
         exact ih2 st' c' heq p (ih1 st₁ c₁ hok p hp))
      | (intro dp n meta rest st c hn ih st' c' heq p hp
         cases meta with
         | error msg =>
           simp only [scan_list, if_pos hn] at heq
           exact ih st' c' heq p hp
         | ok m =>
           simp only [scan_list, if_pos hn] at heq
           exact ih st' c' heq p hp)
      | (intro dp n meta rest st c hn hseen ih st' c' heq p hp
         cases meta with
         | error msg =>
           simp only [scan_list, if_neg hn, if_pos hseen] at heq
           exact ih st' c' heq p hp
         | ok m =>
           simp only [scan_list, if_neg hn, if_pos hseen] at heq
           exact ih st' c' heq p hp)
      | (intro dp n rest st c hn hseen msg st' c' heq p hp
         simp only [scan_list, if_neg hn, if_neg hseen] at heq
         exact Except.noConfusion heq)
      | (intro dp n rest st c hn hseen m ih st' c' heq p hp
         simp only [scan_list, if_neg hn, if_neg hseen] at heq
         exact ih st' c' heq p (upsert_file_paths_mono _ st.db p hp))

/-- Every path a successful scan has in its final seen set was either seen
before the scan or is stored in the final table. -/
theorem scan_list_seen_sub (cfg : IndexerConfig) (now : Int) :
    ∀ (dp : String) (l : List FsEntry) (st : ScanSt) (c : Nat)
      (st' : ScanSt) (c' : Nat),
      scan_list cfg now dp l st c = .ok (st', c') →
      ∀ p ∈ st'.seen, p ∈ st.seen ∨ p ∈ pathsOf st'.db := by
  refine scan_list.induct cfg now
    (fun dp l st c => ∀ (st' : ScanSt) (c' : Nat),
      scan_list cfg now dp l st c = .ok (st', c') →
      ∀ p ∈ st'.seen, p ∈ st.seen ∨ p ∈ pathsOf st'.db)
    ?_ ?_ ?_ ?_ ?_ ?_ ?_ ?_ ?_ ?_ ?_ ?_
  · intro dp st c st' c' heq p hp
    simp only [scan_list, Except.ok.injEq, Prod.mk.injEq] at heq
    rw [← heq.1] at hp
    exact Or.inl hp
  · intro dp rest st c ih st' c' heq p hp
    simp only [scan_list] at heq
    exact ih st' c' heq p hp
  · intro dp n rest st c ih st' c' heq p hp
    simp only [scan_list] at heq
    exact ih st' c' heq p hp
  · intro dp n msg rest st c hn ih st' c' heq p hp
    simp only [scan_list, if_pos hn] at heq
    exact ih st' c' heq p hp
  · intro dp n msg rest st c hn st' c' heq p hp
    simp only [scan_list, if_neg hn] at heq
    exact Except.noConfusion heq
  · intro dp n children rest st c hn ih st' c' heq p hp
    simp only [scan_list, if_pos hn] at heq
    exact ih st' c' heq p hp
  · intro dp n children rest st c hn e he ih st' c' heq p hp
    simp only [scan_list, if_neg hn] at heq
    rw [he] at heq
    exact Except.noConfusion heq
  · intro dp n children rest st c hn st₁ c₁ hok ih1 ih2 st' c' heq p hp
    simp only [scan_list, if_neg hn] at heq
    rw [hok] at heq
    rcases ih2 st' c' heq p hp with h | h
    · rcases ih1 st₁ c₁ hok p h with h' | h'
      · exact Or.inl h'
      · exact Or.inr (scan_list_paths_mono cfg now dp rest st₁ c₁ st' c' heq p h')
    · exact Or.inr h
  · intro dp n meta rest st c hn ih st' c' heq p hp
    cases meta with
    | error msg =>
      simp only [scan_list, if_pos hn] at heq
      exact ih st' c' heq p hp
    | ok m =>
      simp only [scan_list, if_pos hn] at heq
      exact ih st' c' heq p hp
  · intro dp n meta rest st c hn hseen ih st' c' heq p hp
    cases meta with
    | error msg =>
      simp only [scan_list, if_neg hn, if_pos hseen] at heq
      exact ih st' c' heq p hp
    | ok m =>
      simp only [scan_list, if_neg hn, if_pos hseen] at heq
      exact ih st' c' heq p hp
  · intro dp n rest st c hn hseen msg st' c' heq p hp
    simp only [scan_list, if_neg hn, if_neg hseen] at heq
    exact Except.noConfusion heq
  · intro dp n rest st c hn hseen m ih st' c' heq p hp
    simp only [scan_list, if_neg hn, if_neg hseen] at heq
    rcases ih st' c' heq p hp with h | h
    · rcases List.mem_cons.mp h with h' | h'
      · subst h'
        refine Or.inr (scan_list_paths_mono cfg now dp rest _ _ st' c' heq _ ?_)
        exact upsert_file_path_mem _ st.db
      · exact Or.inl h'
    · exact Or.inr h

/-- Every non-excluded file listed directly in a successfully scanned
directory ends up in the final seen set. -/
theorem scan_list_listed_file_seen (cfg : IndexerConfig) (now : Int) :
    ∀ (dp : String) (l : List FsEntry) (st : ScanSt) (c : Nat)
      (st' : ScanSt) (c' : Nat),
      scan_list cfg now dp l st c = .ok (st', c') →
      ∀ (n : String) (meta : Except String FileMeta),
        FsEntry.file n meta ∈ l → n ∉ cfg.excluded_dirs →
        (dp ++ "/" ++ n) ∈ st'.seen := by
  refine scan_list.induct cfg now
    (fun dp l st c => ∀ (st' : ScanSt) (c' : Nat),
      scan_list cfg now dp l st c = .ok (st', c') →
      ∀ (n : String) (meta : Except String FileMeta),
        FsEntry.file n meta ∈ l → n ∉ cfg.excluded_dirs →
        (dp ++ "/" ++ n) ∈ st'.seen)
    ?_ ?_ ?_ ?_ ?_ ?_ ?_ ?_ ?_ ?_ ?_ ?_
  · intro dp st c st' c' heq n meta hf hn
    exact absurd hf (List.not_mem_nil _)
  · intro dp rest st c ih st' c' heq n meta hf hn
    simp only [scan_list] at heq
    rcases List.mem_cons.mp hf with h | h
    · exact FsEntry.noConfusion h
    · exact ih st' c' heq n meta h hn
  · intro dp m rest st c ih st' c' heq n meta hf hn
    simp only [scan_list] at heq
    rcases List.mem_cons.mp hf with h | h
    · exact FsEntry.noConfusion h
    · exact ih st' c' heq n meta h hn
  · intro dp m msg rest st c hm ih st' c' heq n meta hf hn
    simp only [scan_list, if_pos hm] at heq
    rcases List.mem_cons.mp hf with h | h
    · exact FsEntry.noConfusion h
    · exact ih st' c' heq n meta h hn
  · intro dp m msg rest st c hm st' c' heq n meta hf hn
    simp only [scan_list, if_neg hm] at heq
    exact Except.noConfusion heq
  · intro dp m children rest st c hm ih st' c' heq n meta hf hn
    simp only [scan_list, if_pos hm] at heq
    rcases List.mem_cons.mp hf with h | h
    · exact FsEntry.noConfusion h
    · exact ih st' c' heq n meta h hn
  · intro dp m children rest st c hm e he ih st' c' heq n meta hf hn
    simp only [scan_list, if_neg hm] at heq
    rw [he] at heq
    exact Except.noConfusion heq
  · intro dp m children rest st c hm st₁ c₁ hok ih1 ih2 st' c' heq n meta hf hn
    simp only [scan_list, if_neg hm] at heq
    rw [hok] at heq
    rcases List.mem_cons.mp hf with h | h
    · exact FsEntry.noConfusion h
    · exact ih2 st' c' heq n meta h hn
  · intro dp m meta' rest st c hm ih st' c' heq n meta hf hn
    rcases List.mem_cons.mp hf with h | h
    · injection h with h1 h2
      subst h1
      exact absurd hm hn
    · cases meta' with
      | error msg =>
        simp only [scan_list, if_pos hm] at heq
        exact ih st' c' heq n meta h hn
      | ok m' =>
        simp only [scan_list, if_pos hm] at heq
        exact ih st' c' heq n meta h hn
  · intro dp m meta' rest st c hm hseen ih st' c' heq n meta hf hn
    rcases List.mem_cons.mp hf with h | h
    · injection h with h1 h2
      subst h1
      cases meta' with
      | error msg =>
        simp only [scan_list, if_neg hm, if_pos hseen] at heq
        exact scan_list_seen_mono cfg now dp rest st c st' c' heq _ hseen
      | ok m' =>
        simp only [scan_list, if_neg hm, if_pos hseen] at heq
        exact scan_list_seen_mono cfg now dp rest st c st' c' heq _ hseen
    · cases meta' with
      | error msg =>
        simp only [scan_list, if_neg hm, if_pos hseen] at heq
        exact ih st' c' heq n meta h hn
      | ok m' =>
        simp only [scan_list, if_neg hm, if_pos hseen] at heq
        exact ih st' c' heq n meta h hn
  · intro dp m rest st c hm hseen msg st' c' heq n meta hf hn
    simp only [scan_list, if_neg hm, if_neg hseen] at heq
    exact Except.noConfusion heq
  · intro dp m rest st c hm hseen fm ih st' c' heq n meta hf hn
    simp only [scan_list, if_neg hm, if_neg hseen] at heq
    rcases List.mem_cons.mp hf with h | h
    · injection h with h1 h2
      subst h1
      exact scan_list_seen_mono cfg now dp rest _ _ st' c' heq _
        (List.mem_cons_self _ _)
    · exact ih st' c' heq n meta h hn

/-- `index_paths` only grows the set of stored paths. -/
theorem index_paths_paths_mono (cfg : IndexerConfig) (now : Int) :
    ∀ (args : List IndexArg) (st : ScanSt) (c : Nat) (st' : ScanSt) (c' : Nat),
      index_paths cfg now args st c = .ok (st', c') →
      ∀ p ∈ pathsOf st.db, p ∈ pathsOf st'.db := by
  intro args
  induction args with
  | nil =>
    intro st c st' c' heq p hp
    simp only [index_paths, Except.ok.injEq, Prod.mk.injEq] at heq
    rw [← heq.1]
    exact hp
  | cons a rest ih =>
    intro st c st' c' heq p hp
    cases a with
    | missing q =>
      simp only [index_paths] at heq
      exact ih st c st' c' heq p hp
    | dirArg q listing =>
      simp only [index_paths] at heq
      cases listing with
      | error msg =>
        rw [show scan_dir cfg now q (.error msg) ⟨[], st.db⟩ 0
            = .error ("Failed to read directory: " ++ msg) from rfl] at heq
        exact Except.noConfusion heq
      | ok l =>
        rw [show scan_dir cfg now q (.ok l) ⟨[], st.db⟩ 0
            = scan_list cfg now q l ⟨[], st.db⟩ 0 from rfl] at heq
        cases hs : scan_list cfg now q l ⟨[], st.db⟩ 0 with
        | error e =>
          rw [hs] at heq
          exact Except.noConfusion heq
        | ok r =>
          obtain ⟨st₁, c₁⟩ := r
          rw [hs] at heq
          refine ih _ _ st' c' heq p ?_
          exact scan_list_paths_mono cfg now q l ⟨[], st.db⟩ 0 st₁ c₁ hs p hp
    | fileArg q meta =>
      cases meta with
      | error msg =>
        simp only [index_paths] at heq
        exact Except.noConfusion heq
      | ok m =>
        simp only [index_paths] at heq
        exact ih _ _ st' c' heq p (upsert_file_paths_mono _ st.db p hp)

/-- On success, `index_paths` counts exactly its top-level file arguments. -/
theorem index_paths_count (cfg : IndexerConfig) (now : Int) :
    ∀ (args : List IndexArg) (st : ScanSt) (c : Nat) (st' : ScanSt) (c' : Nat),
      index_paths cfg now args st c = .ok (st', c') →
      c' = c + args.countP IndexArg.isFileArg := by
  intro args
  induction args with
  | nil =>
    intro st c st' c' heq
    simp only [index_paths, Except.ok.injEq, Prod.mk.injEq] at heq
    simp [← heq.2]
  | cons a rest ih =>
    intro st c st' c' heq
    cases a with
    | missing q =>
      simp only [index_paths] at heq
      rw [ih st c st' c' heq]
      simp [List.countP_cons, IndexArg.isFileArg]
    | dirArg q listing =>
      simp only [index_paths] at heq
      cases listing with
      | error msg =>
        rw [show scan_dir cfg now q (.error msg) ⟨[], st.db⟩ 0
            = .error ("Failed to read directory: " ++ msg) from rfl] at heq
        exact Except.noConfusion heq
      | ok l =>
        rw [show scan_dir cfg now q (.ok l) ⟨[], st.db⟩ 0
            = scan_list cfg now q l ⟨[], st.db⟩ 0 from rfl] at heq
        cases hs : scan_list cfg now q l ⟨[], st.db⟩ 0 with
        | error e =>
          rw [hs] at heq
          exact Except.noConfusion heq
        | ok r =>
          rw [hs] at heq
          rw [ih _ _ st' c' heq]
          simp [List.countP_cons, IndexArg.isFileArg]
    | fileArg q meta =>
      cases meta with
      | error msg =>
        simp only [index_paths] at heq
        exact Except.noConfusion heq
      | ok m =>
        simp only [index_paths] at heq
        rw [ih _ _ st' c' heq]
        simp [List.countP_cons, IndexArg.isFileArg]
        omega

/-- On success, every non-excluded file listed directly in a directory
argument is stored in the final table. -/
theorem index_paths_dir_files_indexed (cfg : IndexerConfig) (now : Int) :
    ∀ (args : List IndexArg) (st : ScanSt) (c : Nat) (st' : ScanSt) (c' : Nat),
      index_paths cfg now args st c = .ok (st', c') →
      ∀ (p : String) (l : List FsEntry),
        IndexArg.dirArg p (.ok l) ∈ args →
        ∀ (n : String) (meta : Except String FileMeta),
          FsEntry.file n meta ∈ l → n ∉ cfg.excluded_dirs →
          (p ++ "/" ++ n) ∈ pathsOf st'.db := by
  intro args
  induction args with
  | nil =>
    intro st c st' c' heq p l hmem
    exact absurd hmem (List.not_mem_nil _)
  | cons a rest ih =>
    intro st c st' c' heq p l hmem n meta hf hn
    cases a with
    | missing q =>
      simp only [index_paths] at heq
      rcases List.mem_cons.mp hmem with h | h
      · exact IndexArg.noConfusion h
      · exact ih st c st' c' heq p l h n meta hf hn
    | dirArg q listing =>
      simp only [index_paths] at heq
      cases listing with
      | error msg =>
        rw [show scan_dir cfg now q (.error msg) ⟨[], st.db⟩ 0
            = .error ("Failed to read directory: " ++ msg) from rfl] at heq
        exact Except.noConfusion heq
      | ok l₀ =>
        rw [show scan_dir cfg now q (.ok l₀) ⟨[], st.db⟩ 0
            = scan_list cfg now q l₀ ⟨[], st.db⟩ 0 from rfl] at heq
        cases hs : scan_list cfg now q l₀ ⟨[], st.db⟩ 0 with
        | error e =>
          rw [hs] at heq
          exact Except.noConfusion heq
        | ok r =>
          obtain ⟨st₁, c₁⟩ := r
          rw [hs] at heq
          rcases List.mem_cons.mp hmem with h | h
          · injection h with h1 h2
            subst h1
            injection h2 with h2
            subst h2
            have h7 := scan_list_listed_file_seen cfg now p l ⟨[], st.db⟩ 0
              st₁ c₁ hs n meta hf hn
            rcases scan_list_seen_sub cfg now p l ⟨[], st.db⟩ 0 st₁ c₁
              hs _ h7 with h' | h'
            · exact absurd h' (List.not_mem_nil _)
            · exact index_paths_paths_mono cfg now rest _ _ st' c' heq _ h'
          · exact ih _ _ st' c' heq p l h n meta hf hn
    | fileArg q meta' =>
      cases meta' with
      | error msg =>
        simp only [index_paths] at heq
        exact Except.noConfusion heq
      | ok m =>
        simp only [index_paths] at heq
        rcases List.mem_cons.mp hmem with h | h
        · exact IndexArg.noConfusion h
        · exact ih _ _ st' c' heq p l h n meta hf hn

/-- **C4 counterexample**: `index_paths` on a single directory argument
containing two files indexes both files into the store but returns count
0 — the `Self::scan_dir(...)?;` statement discards the directory's count —
refuting the claim that the returned count includes entries indexed inside
directory arguments. -/
theorem c4_counterexample :
    index_paths ⟨[], [], 100000, 5000⟩ 7
      [IndexArg.dirArg "/d"
        (.ok [FsEntry.file "x" (.ok ⟨1, 2⟩), FsEntry.file "y" (.ok ⟨3, 4⟩)])]
      ⟨[], ⟨[], 1⟩⟩ 0
    = .ok (⟨[], ⟨[⟨1, "/d/x", "x", none, 1, 2, false, 7⟩,
                  ⟨2, "/d/y", "y", none, 3, 4, false, 7⟩], 3⟩⟩, 0) := by
  simp [index_paths, scan_dir, scan_list, upsert_file, scannedEntry,
    pathExtension, extAfterLastDot, hiddenName]

/-- **C4 amended** (proved): `index_paths` synchronously indexes the given
files and the files contained in the given directories, bypassing the
configured roots, but the count it returns covers only the top-level file
arguments: on success the count equals the number of file arguments, while
every (non-excluded) file listed in a directory argument is indexed into
the store without being counted. -/
theorem c4_index_paths_count_and_store (cfg : IndexerConfig) (now : Int)
    (args : List IndexArg) (st : ScanSt) (c : Nat) (st' : ScanSt) (c' : Nat)
    (heq : index_paths cfg now args st c = .ok (st', c')) :
    c' = c + args.countP IndexArg.isFileArg
    ∧ (∀ (p : String) (l : List FsEntry),
        IndexArg.dirArg p (.ok l) ∈ args →
        ∀ (n : String) (meta : Except String FileMeta),
          FsEntry.file n meta ∈ l → n ∉ cfg.excluded_dirs →
          (p ++ "/" ++ n) ∈ pathsOf st'.db) :=
  ⟨index_paths_count cfg now args st c st' c' heq,
   index_paths_dir_files_indexed cfg now args st c st' c' heq⟩

/-- Witness for C4: in the counterexample run the count is `0` (no file
arguments) and the file `x` inside the directory argument is stored. -/
theorem c4_index_paths_count_and_store_witness :
    (0 : Nat) = 0 + [IndexArg.dirArg "/d"
        (.ok [FsEntry.file "x" (.ok ⟨1, 2⟩), FsEntry.file "y" (.ok ⟨3, 4⟩)])].countP
        IndexArg.isFileArg
    ∧ ("/d" ++ "/" ++ "x") ∈ pathsOf ⟨[⟨1, "/d/x", "x", none, 1, 2, false, 7⟩,
        ⟨2, "/d/y", "y", none, 3, 4, false, 7⟩], 3⟩ :=
  ⟨(c4_index_paths_count_and_store ⟨[], [], 100000, 5000⟩ 7
      [IndexArg.dirArg "/d"
        (.ok [FsEntry.file "x" (.ok ⟨1, 2⟩), FsEntry.file "y" (.ok ⟨3, 4⟩)])]
      ⟨[], ⟨[], 1⟩⟩ 0
      ⟨[], ⟨[⟨1, "/d/x", "x", none, 1, 2, false, 7⟩,
             ⟨2, "/d/y", "y", none, 3, 4, false, 7⟩], 3⟩⟩ 0
      (by simp [index_paths, scan_dir, scan_list, upsert_file, scannedEntry,
        pathExtension, extAfterLastDot, hiddenName])).1,
   (c4_index_paths_count_and_store ⟨[], [], 100000, 5000⟩ 7
      [IndexArg.dirArg "/d"
        (.ok [FsEntry.file "x" (.ok ⟨1, 2⟩), FsEntry.file "y" (.ok ⟨3, 4⟩)])]
      ⟨[], ⟨[], 1⟩⟩ 0
      ⟨[], ⟨[⟨1, "/d/x", "x", none, 1, 2, false, 7⟩,
             ⟨2, "/d/y", "y", none, 3, 4, false, 7⟩], 3⟩⟩ 0
      (by simp [index_paths, scan_dir, scan_list, upsert_file, scannedEntry,
        pathExtension, extAfterLastDot, hiddenName])).2
      "/d" _ (List.mem_cons_self _ _) "x" (.ok ⟨1, 2⟩)
      (List.mem_cons_self _ _) (by simp)⟩

end ETools
